import Mathlib

/-!
Shallow embedding of `crates/ide_db/src/symbol_index.rs`: the `SymbolIndex`
container (`SymbolIndex::new`, `range_to_map_value`, `map_value_to_range`) and
the query evaluator (`Query::new`, the flag setters, `Query::search`).

Strings are modelled at the byte level as `List Nat`, the level at which the
FST map and the subsequence automaton operate; the modelled fragment is ASCII,
where Rust's `char`-wise and byte-wise views coincide and where
`String::to_lowercase` agrees with `str::to_ascii_lowercase` (the spec declares
Unicode case folding beyond ASCII a non-goal).  The `fst` crate is an external
collaborator: its map is modelled as the sorted association list of
`(key, value)` pairs the builder receives, and the contracts of its
`Subsequence` automaton and of its union operator are modelled directly.
-/

namespace SymbolIndexModel

/-- ASCII lowercasing of one byte, as in Rust's `to_ascii_lowercase`:
`A`..`Z` (65..90) maps to `a`..`z`, everything else is unchanged. -/
def toAsciiLowercase (c : Nat) : Nat :=
  if 65 ≤ c ∧ c ≤ 90 then c + 32 else c

/-- Lowercasing of a byte string, `str::to_ascii_lowercase` (and, on the ASCII
fragment modelled here, also `String::to_lowercase` as used by `Query::new`). -/
def strToLower (s : List Nat) : List Nat := s.map toAsciiLowercase

/-- Strict lexicographic (dictionary) order on byte strings, the order of FST
keys and the order induced by `Iterator::cmp` over the lowercased characters. -/
def lexLt : List Nat → List Nat → Bool
  | [], [] => false
  | [], _ :: _ => true
  | _ :: _, [] => false
  | a :: as, b :: bs => a < b || (a == b && lexLt as bs)

/-- Reflexive lexicographic order on byte strings. -/
def lexLe (x y : List Nat) : Bool := !(lexLt y x)

/-- Acceptance of the `fst::automaton::Subsequence` automaton built over `q`:
it accepts exactly the byte strings containing `q` as a (possibly
non-contiguous) ordered subsequence. -/
def subsequenceMatch : List Nat → List Nat → Bool
  | [], _ => true
  | _ :: _, [] => false
  | a :: as, b :: bs => if a == b then subsequenceMatch as bs else subsequenceMatch (a :: as) bs

/-- `FileSymbolKind` from the source, the tagged kind of an indexed record. -/
inductive FileSymbolKind where
  | Const
  | Enum
  | Function
  | Macro
  | Module
  | Static
  | Struct
  | Trait
  | TypeAlias
  | Union
deriving DecidableEq, Repr, Inhabited

/-- `FileSymbolKind::is_type`. -/
def FileSymbolKind.is_type : FileSymbolKind → Bool
  | .Struct | .Enum | .Trait | .TypeAlias | .Union => true
  | _ => false

/-- `DeclarationLocation`: the opaque `HirFileId` and the two opaque syntax-node
pointers are modelled as naturals with value equality, which is all the index
and the evaluator use of them. -/
structure DeclarationLocation where
  hir_file_id : Nat
  ptr : Nat
  name_ptr : Nat
deriving DecidableEq, Repr, Inhabited

/-- `FileSymbol`, the indexed record; value-typed, equal iff all fields are. -/
structure FileSymbol where
  name : List Nat
  loc : DeclarationLocation
  kind : FileSymbolKind
  container_name : Option (List Nat)
deriving DecidableEq, Repr, Inhabited

/-- The lowercased name of a record: the sort key of `SymbolIndex::new`'s
comparator and the FST key of the record's batch. -/
def lowerName (s : FileSymbol) : List Nat := strToLower s.name

/-- The comparator `cmp` of `SymbolIndex::new` as a `Bool`-valued `le`:
compare the ASCII-lowercased names lexicographically. -/
def symbolLe (lhs rhs : FileSymbol) : Bool := lexLe (lowerName lhs) (lowerName rhs)

/-- `usize::max_value()` on a 64-bit host, the default (unbounded) limit. -/
def usizeMax : Nat := 2 ^ 64 - 1

/-- `Query`: the query string, its cached lowercase, the four flags and the
limit. -/
structure Query where
  query : List Nat
  lowercased : List Nat
  only_types : Bool
  libs : Bool
  exact : Bool
  case_sensitive : Bool
  limit : Nat
deriving Repr

/-- `Query::new`: caches the lowercased query, clears all flags, and sets the
limit to `usize::max_value()`. -/
def Query.new (query : List Nat) : Query :=
  { query := query
    lowercased := strToLower query
    only_types := false
    libs := false
    exact := false
    case_sensitive := false
    limit := usizeMax }

/-- The mutator `Query::only_types`, modelled functionally. -/
def Query.setOnlyTypes (self : Query) : Query := { self with only_types := true }

/-- The mutator `Query::libs`, modelled functionally. -/
def Query.setLibs (self : Query) : Query := { self with libs := true }

/-- The mutator `Query::exact`, modelled functionally. -/
def Query.setExact (self : Query) : Query := { self with exact := true }

/-- The mutator `Query::case_sensitive`, modelled functionally. -/
def Query.setCaseSensitive (self : Query) : Query := { self with case_sensitive := true }

/-- The mutator `Query::limit`, modelled functionally. -/
def Query.setLimit (self : Query) (limit : Nat) : Query := { self with limit := limit }

/-- `SymbolIndex`: the sorted symbol table and the FST map, the latter modelled
as the association list of `(key, u64 value)` pairs in insertion (ascending
key) order. -/
structure SymbolIndex where
  symbols : List FileSymbol
  map : List (List Nat × Nat)
deriving Repr

/-- `#[derive(Default)]` on `SymbolIndex`: empty table, empty map. -/
instance : Inhabited SymbolIndex := ⟨{ symbols := [], map := [] }⟩

/-- `SymbolIndex::range_to_map_value`: `((start as u64) << 32) | end as u64`,
with the u64 truncations explicit. -/
def SymbolIndex.range_to_map_value (start end_ : Nat) : Nat :=
  ((start % 2 ^ 64) * 2 ^ 32) % 2 ^ 64 ||| (end_ % 2 ^ 64)

/-- `SymbolIndex::map_value_to_range`: `end = value as u32`,
`start = value >> 32`, on the u64 `value`. -/
def SymbolIndex.map_value_to_range (value : Nat) : Nat × Nat :=
  let end_ := (value % 2 ^ 64) % 2 ^ 32
  let start := (value % 2 ^ 64) / 2 ^ 32
  (start, end_)

/-- Ordered insertion for `insertionSort`. -/
def orderedInsert (le : α → α → Bool) (a : α) : List α → List α
  | [] => [a]
  | b :: l => if le a b then a :: b :: l else b :: orderedInsert le a l

/-- Sorting by a boolean comparator: the model of the sorting primitive
(`par_sort_by` over the symbol table, and the ascending key order of the FST
union).  Structural recursion so that concrete instances evaluate. -/
def insertionSort (le : α → α → Bool) : List α → List α
  | [] => []
  | a :: l => orderedInsert le a (insertionSort le l)

/-- The batching sweep of `SymbolIndex::new`: iterate `idx` over the sorted
table; while the symbol after `idx` compares equal (lowercased) to the symbol
at `last_batch_start`, continue; otherwise close the batch
`[last_batch_start, idx + 1)`, inserting its lowercased name and encoded range
into the map.  The first argument is fuel bounding the remaining iterations,
`symbols.length - idx`; the loop body checks `idx < symbols.length` itself. -/
def buildBatchesAux (symbols : List FileSymbol) :
    Nat → Nat → Nat → List (List Nat × Nat)
  | 0, _, _ => []
  | fuel + 1, idx, last_batch_start =>
    if idx < symbols.length then
      if (match symbols.get? (idx + 1) with
          | some next_symbol =>
              lowerName (symbols.getD last_batch_start default) == lowerName next_symbol
          | none => false) then
        buildBatchesAux symbols fuel (idx + 1) last_batch_start
      else
        (lowerName (symbols.getD last_batch_start default),
         SymbolIndex.range_to_map_value last_batch_start (idx + 1))
          :: buildBatchesAux symbols fuel (idx + 1) (idx + 1)
    else []

/-- The batching sweep, entered at iteration `idx` with batch start
`last_batch_start`. -/
def buildBatches (symbols : List FileSymbol) (idx last_batch_start : Nat) :
    List (List Nat × Nat) :=
  buildBatchesAux symbols (symbols.length - idx) idx last_batch_start

/-- `SymbolIndex::new`: sort the symbols by lowercased name, then sweep out the
maximal runs of equal lowercased name into the FST map. -/
def SymbolIndex.new (symbols : List FileSymbol) : SymbolIndex :=
  let sorted := insertionSort symbolLe symbols
  { symbols := sorted, map := buildBatches sorted 0 0 }

/-- `SymbolIndex::len`. -/
def SymbolIndex.len (self : SymbolIndex) : Nat := self.symbols.length

/-- The stream `file_symbols.map.search(automaton)`: the `(key, value)` pairs
of the FST map whose key the subsequence automaton accepts, in key order. -/
def SymbolIndex.searchStream (self : SymbolIndex) (lowercased : List Nat) :
    List (List Nat × Nat) :=
  self.map.filter (fun kv => subsequenceMatch lowercased kv.1)

/-- The fused union stream (`fst`'s union operator): the distinct keys across
all per-index streams in ascending lexicographic order, each paired with the
`(index_id, value)` pairs of the streams containing that key, in ascending
index order. -/
def unionKeys (streams : List (List (List Nat × Nat))) : List (List Nat) :=
  (insertionSort lexLe (streams.flatMap (fun s => s.map Prod.fst))).dedup

def unionStream (streams : List (List (List Nat × Nat))) :
    List (List Nat × List (Nat × Nat)) :=
  (unionKeys streams).map (fun k =>
    (k, (streams.enum).filterMap (fun is => (is.2.lookup k).map (fun v => (is.1, v)))))

/-- The filter chain in the body of `Query::search`: the `only_types` kind
filter, then the `exact` byte-for-byte name check, else the `case_sensitive`
per-character containment check, else accept. -/
def Query.accepts (self : Query) (symbol : FileSymbol) : Bool :=
  if self.only_types && !symbol.kind.is_type then false
  else if self.exact then symbol.name == self.query
  else if self.case_sensitive then
    !(self.query.any (fun c => !(symbol.name.contains c)))
  else true

/-- The innermost loop of `Query::search` over one batch slice: push each
accepted symbol and return (`true` = early return) as soon as
`res.len() >= self.limit` after a push. -/
def Query.pushLoop (self : Query) :
    List FileSymbol → List FileSymbol → List FileSymbol × Bool
  | [], res => (res, false)
  | symbol :: rest, res =>
    if self.accepts symbol then
      let res := res ++ [symbol]
      if self.limit ≤ res.length then (res, true)
      else self.pushLoop rest res
    else self.pushLoop rest res

/-- The loop of `Query::search` over the indexed values of one union-stream
key: decode each value to a range, slice the owning index's table, and run the
push loop, propagating its early return. -/
def Query.ivLoop (self : Query) (indices : List SymbolIndex) :
    List (Nat × Nat) → List FileSymbol → List FileSymbol × Bool
  | [], res => (res, false)
  | iv :: rest, res =>
    let symbol_index := indices.getD iv.1 default
    let r := SymbolIndex.map_value_to_range iv.2
    match self.pushLoop ((symbol_index.symbols.drop r.1).take (r.2 - r.1)) res with
    | (res, true) => (res, true)
    | (res, false) => self.ivLoop indices rest res

/-- The outer loop of `Query::search` over the union stream. -/
def Query.keyLoop (self : Query) (indices : List SymbolIndex) :
    List (List Nat × List (Nat × Nat)) → List FileSymbol → List FileSymbol
  | [], res => res
  | e :: rest, res =>
    match self.ivLoop indices e.2 res with
    | (res, true) => res
    | (res, false) => self.keyLoop indices rest res

/-- `Query::search`: build one subsequence automaton per index over the cached
lowercased query, union the filtered per-index streams, and run the batch
loops with the limit's early return. -/
def Query.search (self : Query) (indices : List SymbolIndex) : List FileSymbol :=
  let streams := indices.map (fun i => i.searchStream self.lowercased)
  self.keyLoop indices (unionStream streams) []

/-- `Query::search` with the limit's early return removed: the stream of all
accepted records, in union-stream order.  This is the behaviour of `search`
under the default unbounded limit. -/
def Query.searchUnbounded (self : Query) (indices : List SymbolIndex) : List FileSymbol :=
  let streams := indices.map (fun i => i.searchStream self.lowercased)
  (unionStream streams).flatMap (fun e =>
    e.2.flatMap (fun iv =>
      let symbol_index := indices.getD iv.1 default
      let r := SymbolIndex.map_value_to_range iv.2
      ((symbol_index.symbols.drop r.1).take (r.2 - r.1)).filter (fun s => self.accepts s)))

/-! ### Order lemmas for `lexLt` / `lexLe` -/

theorem lexLt_irrefl (x : List Nat) : lexLt x x = false := by
  induction x with
  | nil => rfl
  | cons a as ih => simp [lexLt, ih]

theorem lexLt_trans : ∀ {x y z : List Nat},
    lexLt x y = true → lexLt y z = true → lexLt x z = true
  | [], _ :: _, _ :: _, _, _ => rfl
  | [], [], _, h, _ => by cases h
  | _, [], _, h, _ => by cases lexLt_nil h
  | _, _ :: _, [], _, h => by cases h
  | a :: as, b :: bs, c :: cs, h1, h2 => by
    simp only [lexLt, Bool.or_eq_true, Bool.and_eq_true, beq_iff_eq,
      decide_eq_true_eq] at h1 h2 ⊢
    rcases h1 with h1 | ⟨rfl, h1⟩
    · rcases h2 with h2 | ⟨rfl, _⟩
      · exact Or.inl (Nat.lt_trans h1 h2)
      · exact Or.inl h1
    · rcases h2 with h2 | ⟨rfl, h2⟩
      · exact Or.inl h2
      · exact Or.inr ⟨rfl, lexLt_trans h1 h2⟩
where
  lexLt_nil : ∀ {x : List Nat}, lexLt x [] = true → False
    | [], h => by cases h
    | _ :: _, h => by cases h

theorem lexLt_trichotomy : ∀ (x y : List Nat),
    lexLt x y = true ∨ x = y ∨ lexLt y x = true
  | [], [] => Or.inr (Or.inl rfl)
  | [], _ :: _ => Or.inl rfl
  | _ :: _, [] => Or.inr (Or.inr rfl)
  | a :: as, b :: bs => by
    rcases Nat.lt_trichotomy a b with h | rfl | h
    · exact Or.inl (by simp [lexLt, h])
    · rcases lexLt_trichotomy as bs with h | rfl | h
      · exact Or.inl (by simp [lexLt, h])
      · exact Or.inr (Or.inl rfl)
      · exact Or.inr (Or.inr (by simp [lexLt, h]))
    · exact Or.inr (Or.inr (by simp [lexLt, h]))

theorem lexLt_asymm {x y : List Nat} (h : lexLt x y = true) : lexLt y x = false := by
  cases hc : lexLt y x with
  | false => rfl
  | true =>
    have := lexLt_trans h hc
    rw [lexLt_irrefl] at this
    cases this

theorem lexLe_refl (x : List Nat) : lexLe x x = true := by
  simp [lexLe, lexLt_irrefl]

theorem lexLe_total (x y : List Nat) : lexLe x y || lexLe y x := by
  simp only [lexLe, Bool.or_eq_true, Bool.not_eq_true']
  rcases lexLt_trichotomy x y with h | rfl | h
  · exact Or.inl (lexLt_asymm h)
  · exact Or.inl (lexLt_irrefl x)
  · exact Or.inr (lexLt_asymm h)

theorem lexLe_trans {x y z : List Nat} (h1 : lexLe x y = true) (h2 : lexLe y z = true) :
    lexLe x z = true := by
  simp only [lexLe, Bool.not_eq_true'] at h1 h2 ⊢
  by_contra hc
  rw [Bool.not_eq_false] at hc
  rcases lexLt_trichotomy y z with h | rfl | h
  · have := lexLt_trans h hc
    rw [h1] at this; cases this
  · rw [hc] at h1; cases h1
  · rw [h2] at h; cases h

theorem lexLe_antisymm {x y : List Nat} (h1 : lexLe x y = true) (h2 : lexLe y x = true) :
    x = y := by
  simp only [lexLe, Bool.not_eq_true'] at h1 h2
  rcases lexLt_trichotomy x y with h | h | h
  · rw [h2] at h; cases h
  · exact h
  · rw [h1] at h; cases h

theorem lexLt_of_lexLe_of_ne {x y : List Nat} (h1 : lexLe x y = true) (h2 : x ≠ y) :
    lexLt x y = true := by
  simp only [lexLe, Bool.not_eq_true'] at h1
  rcases lexLt_trichotomy x y with h | h | h
  · exact h
  · exact absurd h h2
  · rw [h1] at h; cases h

theorem lexLe_of_lexLt {x y : List Nat} (h : lexLt x y = true) : lexLe x y = true := by
  simp [lexLe, lexLt_asymm h]

theorem symbolLe_total (a b : FileSymbol) : symbolLe a b || symbolLe b a :=
  lexLe_total (lowerName a) (lowerName b)

theorem symbolLe_trans {a b c : FileSymbol} (h1 : symbolLe a b) (h2 : symbolLe b c) :
    symbolLe a c :=
  lexLe_trans h1 h2

/-! ### Insertion sort lemmas -/

theorem orderedInsert_perm (le : α → α → Bool) (a : α) :
    ∀ l : List α, (orderedInsert le a l).Perm (a :: l)
  | [] => List.Perm.refl _
  | b :: l => by
    unfold orderedInsert
    by_cases h : le a b = true
    · rw [if_pos h]
    · rw [if_neg h]
      exact ((orderedInsert_perm le a l).cons b).trans (List.Perm.swap a b l)

theorem insertionSort_perm (le : α → α → Bool) :
    ∀ l : List α, (insertionSort le l).Perm l
  | [] => List.Perm.refl _
  | a :: l => (orderedInsert_perm le a _).trans ((insertionSort_perm le l).cons a)

theorem pairwise_orderedInsert (le : α → α → Bool)
    (htotal : ∀ a b, le a b || le b a)
    (htrans : ∀ {a b c}, le a b = true → le b c = true → le a c = true) (a : α) :
    ∀ l : List α, l.Pairwise (fun x y => le x y = true) →
      (orderedInsert le a l).Pairwise (fun x y => le x y = true)
  | [], _ => by simp [orderedInsert]
  | b :: l, h => by
    unfold orderedInsert
    rcases List.pairwise_cons.mp h with ⟨hb, hl⟩
    by_cases hab : le a b = true
    · rw [if_pos hab]
      refine List.pairwise_cons.mpr ⟨?_, h⟩
      intro x hx
      rcases List.mem_cons.mp hx with rfl | hx
      · exact hab
      · exact htrans hab (hb x hx)
    · rw [if_neg hab]
      have hba : le b a = true := by
        have := htotal a b
        rw [Bool.eq_false_iff.mpr hab] at this
        simpa using this
      refine List.pairwise_cons.mpr
        ⟨?_, pairwise_orderedInsert le htotal htrans a l hl⟩
      intro x hx
      rcases List.mem_cons.mp ((orderedInsert_perm le a l).mem_iff.mp hx) with rfl | hx
      · exact hba
      · exact hb x hx

theorem pairwise_insertionSort (le : α → α → Bool)
    (htotal : ∀ a b, le a b || le b a)
    (htrans : ∀ {a b c}, le a b = true → le b c = true → le a c = true) :
    ∀ l : List α, (insertionSort le l).Pairwise (fun x y => le x y = true)
  | [] => List.Pairwise.nil
  | a :: l =>
    pairwise_orderedInsert le htotal htrans a _ (pairwise_insertionSort le htotal htrans l)

theorem insertionSort_of_pairwise (le : α → α → Bool) :
    ∀ l : List α, l.Pairwise (fun x y => le x y = true) → insertionSort le l = l
  | [], _ => rfl
  | a :: l, h => by
    rcases List.pairwise_cons.mp h with ⟨ha, hl⟩
    rw [insertionSort, insertionSort_of_pairwise le l hl]
    cases l with
    | nil => rfl
    | cons b l' =>
      unfold orderedInsert
      rw [if_pos (ha b (List.mem_cons_self b l'))]

/-- The subsequence automaton of the empty query accepts every key. -/
theorem subsequenceMatch_nil (x : List Nat) : subsequenceMatch [] x = true := by
  cases x <;> rfl

/-- The subsequence automaton accepts the very string it was built from. -/
theorem subsequenceMatch_refl : ∀ (x : List Nat), subsequenceMatch x x = true
  | [] => rfl
  | a :: as => by simp [subsequenceMatch, subsequenceMatch_refl as]

/-! ### Round-trip of the range encoding (C9) -/

theorem mul_two_pow_lor_eq_add (n : Nat) :
    ∀ (s e : Nat), e < 2 ^ n → s * 2 ^ n ||| e = s * 2 ^ n + e := by
  induction n with
  | zero =>
    intro s e he
    have : e = 0 := by omega
    subst this
    simp
  | succ n ih =>
    intro s e he
    have hrepr : e = Nat.bit (decide (e % 2 = 1)) (e >>> 1) :=
      (Nat.bit_decide_mod_two_eq_one_shiftRight_one e).symm
    have hsh : s * 2 ^ (n + 1) = Nat.bit false (s * 2 ^ n) := by
      simp [Nat.bit, Nat.pow_succ]; ring
    have hdiv : e >>> 1 = e / 2 := Nat.shiftRight_one e
    have hdivlt : e / 2 < 2 ^ n := by
      have := Nat.pow_succ 2 n
      omega
    calc s * 2 ^ (n + 1) ||| e
        = Nat.bit false (s * 2 ^ n) ||| Nat.bit (decide (e % 2 = 1)) (e >>> 1) := by
          rw [← hrepr, ← hsh]
      _ = Nat.bit (false || decide (e % 2 = 1)) (s * 2 ^ n ||| e >>> 1) :=
          Nat.lor_bit false (s * 2 ^ n) (decide (e % 2 = 1)) (e >>> 1)
      _ = Nat.bit (decide (e % 2 = 1)) (s * 2 ^ n + e / 2) := by
          rw [Bool.false_or, hdiv, ih s (e / 2) hdivlt]
      _ = s * 2 ^ (n + 1) + e := by
          rw [Nat.bit_val]
          have hmod : (decide (e % 2 = 1)).toNat = e % 2 := by
            rcases Nat.mod_two_eq_zero_or_one e with h | h <;> simp [h]
          rw [hmod, Nat.pow_succ]
          have : e % 2 + 2 * (e / 2) = e := by omega
          ring_nf
          omega

/-- Correct decoding of an encoded range whose endpoints fit in 32 bits. -/
theorem map_value_to_range_round_trip {s e : Nat} (hs : s < 2 ^ 32) (he : e < 2 ^ 32) :
    SymbolIndex.map_value_to_range (SymbolIndex.range_to_map_value s e) = (s, e) := by
  unfold SymbolIndex.range_to_map_value SymbolIndex.map_value_to_range
  have h64 : (2 : Nat) ^ 64 = 2 ^ 32 * 2 ^ 32 := by norm_num
  have hs64 : s % 2 ^ 64 = s := Nat.mod_eq_of_lt (by omega)
  have he64 : e % 2 ^ 64 = e := Nat.mod_eq_of_lt (by omega)
  rw [hs64, he64]
  have hmul : s * 2 ^ 32 < 2 ^ 64 := by
    rw [h64]
    exact Nat.mul_lt_mul_of_lt_of_le hs (Nat.le_refl _) (by norm_num)
  rw [Nat.mod_eq_of_lt hmul, mul_two_pow_lor_eq_add 32 s e he]
  have hv : s * 2 ^ 32 + e < 2 ^ 64 := by
    rw [h64]
    have : s * 2 ^ 32 ≤ (2 ^ 32 - 1) * 2 ^ 32 := Nat.mul_le_mul_right _ (by omega)
    omega
  rw [Nat.mod_eq_of_lt hv]
  show ((s * 2 ^ 32 + e) / 2 ^ 32, (s * 2 ^ 32 + e) % 2 ^ 32) = (s, e)
  have hdiv : (s * 2 ^ 32 + e) / 2 ^ 32 = s := by
    rw [Nat.add_comm, Nat.add_mul_div_right e s (by norm_num), Nat.div_eq_of_lt he,
      Nat.zero_add]
  have hmod : (s * 2 ^ 32 + e) % 2 ^ 32 = e := by
    rw [Nat.add_comm, Nat.add_mul_mod_self_right, Nat.mod_eq_of_lt he]
  rw [hdiv, hmod]

/-! ### The limit's early return: `search` is a prefix of the unbounded stream.

The push happens before the length check, so the effective cap is
`max 1 limit`: a limit of `0` still lets one record through. -/

/-- The batch slice denoted by one `(index_id, value)` pair of the union
stream. -/
def ivSlice (indices : List SymbolIndex) (iv : Nat × Nat) : List FileSymbol :=
  ((indices.getD iv.1 default).symbols.drop (SymbolIndex.map_value_to_range iv.2).1).take
    ((SymbolIndex.map_value_to_range iv.2).2 - (SymbolIndex.map_value_to_range iv.2).1)

theorem pushLoop_eq (self : Query) : ∀ (syms res : List FileSymbol),
    res.length < max 1 self.limit →
    self.pushLoop syms res =
      ((res ++ syms.filter (fun s => self.accepts s)).take (max 1 self.limit),
       decide (max 1 self.limit ≤ (res ++ syms.filter (fun s => self.accepts s)).length)) := by
  intro syms
  induction syms with
  | nil =>
    intro res hres
    simp only [Query.pushLoop, List.filter_nil, List.append_nil]
    rw [List.take_of_length_le (Nat.le_of_lt hres),
      decide_eq_false (Nat.not_le_of_lt hres)]
  | cons s rest ih =>
    intro res hres
    cases ha : self.accepts s with
    | true =>
      simp only [Query.pushLoop, ha, if_true, List.filter_cons, ite_true]
      by_cases hl : self.limit ≤ (res ++ [s]).length
      · simp only [hl, if_true]
        have hcap : (res ++ [s]).length = max 1 self.limit := by
          simp only [List.length_append, List.length_singleton] at hl hres ⊢
          omega
        have hassoc : res ++ s :: List.filter (fun s => self.accepts s) rest =
            (res ++ [s]) ++ List.filter (fun s => self.accepts s) rest := by
          simp
        have htake : (res ++ s :: List.filter (fun s => self.accepts s) rest).take
            (max 1 self.limit) = res ++ [s] := by
          rw [hassoc, ← hcap, List.take_left]
        have hdec : decide (max 1 self.limit ≤
            (res ++ s :: List.filter (fun s => self.accepts s) rest).length) = true := by
          rw [decide_eq_true_eq, hassoc, List.length_append, ← hcap]
          exact Nat.le_add_right _ _
        rw [htake, hdec]
      · simp only [hl, if_false]
        have hlt : (res ++ [s]).length < max 1 self.limit := by
          simp only [List.length_append, List.length_singleton] at hl ⊢
          omega
        rw [ih (res ++ [s]) hlt]
        simp
    | false =>
      simp only [Query.pushLoop, ha, Bool.false_eq_true, if_false, List.filter_cons,
        ite_false]
      exact ih res hres

theorem ivLoop_eq (self : Query) (indices : List SymbolIndex) : ∀ (ivs : List (Nat × Nat))
    (res : List FileSymbol), res.length < max 1 self.limit →
    self.ivLoop indices ivs res =
      ((res ++ (ivs.flatMap (fun iv =>
          (ivSlice indices iv).filter (fun s => self.accepts s)))).take (max 1 self.limit),
       decide (max 1 self.limit ≤ (res ++ (ivs.flatMap (fun iv =>
          (ivSlice indices iv).filter (fun s => self.accepts s)))).length)) := by
  intro ivs
  induction ivs with
  | nil =>
    intro res hres
    simp only [Query.ivLoop, List.flatMap_nil, List.append_nil]
    rw [List.take_of_length_le (Nat.le_of_lt hres),
      decide_eq_false (Nat.not_le_of_lt hres)]
  | cons iv rest ih =>
    intro res hres
    have hpush := pushLoop_eq self (ivSlice indices iv) res hres
    simp only [Query.ivLoop]
    rw [show ((indices.getD iv.1 default).symbols.drop
          (SymbolIndex.map_value_to_range iv.2).1).take
          ((SymbolIndex.map_value_to_range iv.2).2 -
            (SymbolIndex.map_value_to_range iv.2).1) = ivSlice indices iv from rfl]
    rw [hpush]
    by_cases hl : max 1 self.limit ≤
        (res ++ (ivSlice indices iv).filter (fun s => self.accepts s)).length
    · rw [decide_eq_true hl]
      simp only [List.flatMap_cons]
      have hassoc : res ++ ((ivSlice indices iv).filter (fun s => self.accepts s) ++
          rest.flatMap (fun iv => (ivSlice indices iv).filter (fun s => self.accepts s))) =
          (res ++ (ivSlice indices iv).filter (fun s => self.accepts s)) ++
          rest.flatMap (fun iv => (ivSlice indices iv).filter (fun s => self.accepts s)) := by
        simp
      rw [hassoc, List.take_append_of_le_length hl, decide_eq_true]
      rw [List.length_append]
      exact Nat.le_trans hl (Nat.le_add_right _ _)
    · rw [decide_eq_false hl]
      have hlt : (res ++ (ivSlice indices iv).filter (fun s => self.accepts s)).length <
          max 1 self.limit := Nat.lt_of_not_le hl
      rw [List.take_of_length_le (Nat.le_of_lt hlt)]
      exact (ih _ hlt).trans (by simp only [List.flatMap_cons, List.append_assoc])

theorem keyLoop_eq (self : Query) (indices : List SymbolIndex) :
    ∀ (entries : List (List Nat × List (Nat × Nat))) (res : List FileSymbol),
    res.length < max 1 self.limit →
    self.keyLoop indices entries res =
      (res ++ (entries.flatMap (fun e => e.2.flatMap (fun iv =>
          (ivSlice indices iv).filter (fun s => self.accepts s))))).take
        (max 1 self.limit) := by
  intro entries
  induction entries with
  | nil =>
    intro res hres
    simp only [Query.keyLoop, List.flatMap_nil, List.append_nil]
    rw [List.take_of_length_le (Nat.le_of_lt hres)]
  | cons e rest ih =>
    intro res hres
    simp only [Query.keyLoop]
    rw [ivLoop_eq self indices e.2 res hres]
    by_cases hl : max 1 self.limit ≤
        (res ++ (e.2.flatMap (fun iv =>
          (ivSlice indices iv).filter (fun s => self.accepts s)))).length
    · rw [decide_eq_true hl]
      simp only [List.flatMap_cons]
      have hassoc : res ++ (e.2.flatMap (fun iv =>
            (ivSlice indices iv).filter (fun s => self.accepts s)) ++
          rest.flatMap (fun e => e.2.flatMap (fun iv =>
            (ivSlice indices iv).filter (fun s => self.accepts s)))) =
          (res ++ e.2.flatMap (fun iv =>
            (ivSlice indices iv).filter (fun s => self.accepts s))) ++
          rest.flatMap (fun e => e.2.flatMap (fun iv =>
            (ivSlice indices iv).filter (fun s => self.accepts s))) := by
        simp
      rw [hassoc, List.take_append_of_le_length hl]
    · rw [decide_eq_false hl]
      have hlt := Nat.lt_of_not_le hl
      rw [List.take_of_length_le (Nat.le_of_lt hlt)]
      exact (ih _ hlt).trans (by simp only [List.flatMap_cons, List.append_assoc])

/-- `Query::search` returns the first `max 1 limit` records of the unbounded
stream: the limit check runs after each push, so a limit of `0` behaves like a
limit of `1`. -/
theorem search_eq_take (self : Query) (indices : List SymbolIndex) :
    self.search indices = (self.searchUnbounded indices).take (max 1 self.limit) := by
  unfold Query.search Query.searchUnbounded
  rw [keyLoop_eq self indices _ [] (by simp)]
  simp only [List.nil_append]
  rfl

/-! ### Structure of the built map: the batch chain -/

/-- The entries decode to consecutive nonempty half-open ranges starting at
`a` and ending at `symbols.length`, each keyed by the common lowercased name
of its members. -/
def batchChain (symbols : List FileSymbol) : Nat → List (List Nat × Nat) → Prop
  | a, [] => a = symbols.length
  | a, kv :: rest =>
    ∃ e, SymbolIndex.map_value_to_range kv.2 = (a, e) ∧ a < e ∧ e ≤ symbols.length ∧
      (∀ i, a ≤ i → i < e → lowerName (symbols.getD i default) = kv.1) ∧
      batchChain symbols e rest

theorem getD_eq_getElem {l : List α} {i : Nat} (d : α) (h : i < l.length) :
    l.getD i d = l[i] := by
  simp [List.getD_eq_getElem?_getD, List.getElem?_eq_getElem h]

theorem buildBatchesAux_stop (symbols : List FileSymbol) (fuel idx lbs : Nat)
    (h : symbols.length ≤ idx) : buildBatchesAux symbols fuel idx lbs = [] := by
  cases fuel with
  | zero => rfl
  | succ fuel =>
    unfold buildBatchesAux
    rw [if_neg (Nat.not_lt_of_le h)]

theorem buildBatchesAux_chain (symbols : List FileSymbol)
    (hn : symbols.length < 2 ^ 32) :
    ∀ (fuel idx last_batch_start : Nat),
      symbols.length ≤ idx + fuel →
      last_batch_start ≤ idx → idx < symbols.length →
      (∀ j, last_batch_start ≤ j → j ≤ idx →
        lowerName (symbols.getD j default) =
          lowerName (symbols.getD last_batch_start default)) →
      batchChain symbols last_batch_start
        (buildBatchesAux symbols fuel idx last_batch_start) := by
  intro fuel
  induction fuel with
  | zero =>
    intro idx lbs hfuel _ hidx _
    omega
  | succ fuel ih =>
    intro idx lbs hfuel hle hidx hconst
    unfold buildBatchesAux
    rw [if_pos hidx]
    cases hnext : symbols.get? (idx + 1) with
    | some next_symbol =>
      have hidx1 : idx + 1 < symbols.length := by
        rcases List.get?_eq_some.mp hnext with ⟨h1, _⟩
        exact h1
      have hnextD : symbols.getD (idx + 1) default = next_symbol := by
        rw [List.getD_eq_getElem?_getD, ← List.get?_eq_getElem?, hnext]
        rfl
      by_cases heq : lowerName (symbols.getD lbs default) == lowerName next_symbol
      · rw [if_pos (show (match some next_symbol with | some next_symbol => lowerName (symbols.getD lbs default) == lowerName next_symbol | none => false) = true from heq)]
        refine ih (idx + 1) lbs (by omega) (by omega) hidx1 ?_
        intro j hj1 hj2
        rcases Nat.lt_or_ge j (idx + 1) with hj | hj
        · exact hconst j hj1 (by omega)
        · have : j = idx + 1 := by omega
          subst this
          rw [hnextD]
          exact (beq_iff_eq.mp heq).symm
      · rw [if_neg (show ¬(match some next_symbol with | some next_symbol => lowerName (symbols.getD lbs default) == lowerName next_symbol | none => false) = true from heq)]
        refine ⟨idx + 1, ?_, by omega, by omega, ?_, ?_⟩
        · exact map_value_to_range_round_trip (by omega) (by omega)
        · intro i hi1 hi2
          exact hconst i hi1 (by omega)
        · refine ih (idx + 1) (idx + 1) (by omega) (Nat.le_refl _) hidx1 ?_
          intro j hj1 hj2
          have : j = idx + 1 := by omega
          subst this
          rfl
    | none =>
      have hlen : symbols.length ≤ idx + 1 := List.get?_eq_none.mp hnext
      rw [if_neg (show ¬(match (none : Option FileSymbol) with | some next_symbol => lowerName (symbols.getD lbs default) == lowerName next_symbol | none => false) = true from fun h => Bool.noConfusion h)]
      refine ⟨idx + 1, ?_, by omega, by omega, ?_, ?_⟩
      · exact map_value_to_range_round_trip (by omega) (by omega)
      · intro i hi1 hi2
        exact hconst i hi1 (by omega)
      · have hstop := buildBatchesAux_stop symbols fuel (idx + 1) (idx + 1) hlen
        rw [hstop]
        show idx + 1 = symbols.length
        omega

/-- The map of a built index is a batch chain over its (sorted) symbol
table. -/
theorem new_map_chain (symbols : List FileSymbol)
    (hn : symbols.length < 2 ^ 32) :
    batchChain (SymbolIndex.new symbols).symbols 0 (SymbolIndex.new symbols).map := by
  have hlen : (SymbolIndex.new symbols).symbols.length = symbols.length :=
    (insertionSort_perm symbolLe symbols).length_eq
  show batchChain (SymbolIndex.new symbols).symbols 0
    (buildBatches (SymbolIndex.new symbols).symbols 0 0)
  unfold buildBatches
  cases hz : (SymbolIndex.new symbols).symbols.length with
  | zero =>
    rw [Nat.zero_sub]
    show (0 : Nat) = (SymbolIndex.new symbols).symbols.length
    omega
  | succ m =>
    rw [Nat.sub_zero]
    exact buildBatchesAux_chain _ (by omega) _ 0 0 (by omega) (Nat.le_refl 0)
      (by omega) (fun j hj1 hj2 => by
        have : j = 0 := by omega
        subst this
        rfl)

/-! ### Facts derived from the batch chain -/

theorem batchChain_mem_bounds {symbols : List FileSymbol} :
    ∀ {a : Nat} {entries : List (List Nat × Nat)}, batchChain symbols a entries →
      ∀ kv ∈ entries,
        a ≤ (SymbolIndex.map_value_to_range kv.2).1 ∧
        (SymbolIndex.map_value_to_range kv.2).1 < (SymbolIndex.map_value_to_range kv.2).2 ∧
        (SymbolIndex.map_value_to_range kv.2).2 ≤ symbols.length ∧
        (∀ i, (SymbolIndex.map_value_to_range kv.2).1 ≤ i →
          i < (SymbolIndex.map_value_to_range kv.2).2 →
          lowerName (symbols.getD i default) = kv.1) := by
  intro a entries
  induction entries generalizing a with
  | nil => intro _ kv hkv; cases hkv
  | cons x rest ih =>
    intro h kv hkv
    rcases h with ⟨e, hdec, hlt, hle, hkey, htail⟩
    rcases List.mem_cons.mp hkv with rfl | hkv
    · rw [hdec]
      exact ⟨Nat.le_refl _, hlt, hle, fun i h1 h2 => hkey i h1 h2⟩
    · have := ih htail kv hkv
      exact ⟨Nat.le_trans (Nat.le_of_lt hlt) this.1, this.2⟩

theorem batchChain_cover {symbols : List FileSymbol} :
    ∀ {a : Nat} {entries : List (List Nat × Nat)}, batchChain symbols a entries →
      ∀ i, a ≤ i → i < symbols.length → ∃ kv, kv ∈ entries ∧
        (SymbolIndex.map_value_to_range kv.2).1 ≤ i ∧
        i < (SymbolIndex.map_value_to_range kv.2).2 := by
  intro a entries
  induction entries generalizing a with
  | nil =>
    intro h i h1 h2
    rw [h] at h1
    omega
  | cons x rest ih =>
    intro h i h1 h2
    rcases h with ⟨e, hdec, hlt, hle, hkey, htail⟩
    rcases Nat.lt_or_ge i e with hi | hi
    · exact ⟨x, List.mem_cons_self _ _, by rw [hdec]; exact ⟨h1, hi⟩⟩
    · rcases ih htail i hi h2 with ⟨kv, hkv, hb⟩
      exact ⟨kv, List.mem_cons_of_mem _ hkv, hb⟩

theorem batchChain_disjoint {symbols : List FileSymbol} :
    ∀ {a : Nat} {entries : List (List Nat × Nat)}, batchChain symbols a entries →
      ∀ kv1, kv1 ∈ entries → ∀ kv2, kv2 ∈ entries → ∀ i,
        (SymbolIndex.map_value_to_range kv1.2).1 ≤ i →
        i < (SymbolIndex.map_value_to_range kv1.2).2 →
        (SymbolIndex.map_value_to_range kv2.2).1 ≤ i →
        i < (SymbolIndex.map_value_to_range kv2.2).2 → kv1 = kv2 := by
  intro a entries
  induction entries generalizing a with
  | nil => intro _ kv1 h1; cases h1
  | cons x rest ih =>
    intro h kv1 h1 kv2 h2 i hs1 he1 hs2 he2
    rcases h with ⟨e, hdec, hlt, hle, hkey, htail⟩
    have hxe : (SymbolIndex.map_value_to_range x.2).2 = e := by rw [hdec]
    rcases List.mem_cons.mp h1 with h1x | h1r
    · rcases List.mem_cons.mp h2 with h2x | h2r
      · rw [h1x, h2x]
      · have hb := (batchChain_mem_bounds htail kv2 h2r).1
        rw [h1x] at he1
        omega
    · rcases List.mem_cons.mp h2 with h2x | h2r
      · have hb := (batchChain_mem_bounds htail kv1 h1r).1
        rw [h2x] at he2
        omega
      · exact ih htail kv1 h1r kv2 h2r i hs1 he1 hs2 he2

theorem batchChain_flatMap_slice {symbols : List FileSymbol} :
    ∀ {a : Nat} {entries : List (List Nat × Nat)}, batchChain symbols a entries →
      entries.flatMap (fun kv =>
        ((symbols.drop (SymbolIndex.map_value_to_range kv.2).1).take
          ((SymbolIndex.map_value_to_range kv.2).2 -
            (SymbolIndex.map_value_to_range kv.2).1))) = symbols.drop a := by
  intro a entries
  induction entries generalizing a with
  | nil =>
    intro h
    rw [List.flatMap_nil, h, List.drop_of_length_le (Nat.le_refl _)]
  | cons x rest ih =>
    intro h
    rcases h with ⟨e, hdec, hlt, hle, hkey, htail⟩
    rw [List.flatMap_cons, ih htail, hdec]
    show ((symbols.drop a).take (e - a)) ++ symbols.drop e = symbols.drop a
    have : symbols.drop e = (symbols.drop a).drop (e - a) := by
      rw [List.drop_drop]
      congr 1
      omega
    rw [this, List.take_append_drop]

theorem lexLt_of_lexLt_of_lexLe {x y z : List Nat} (h1 : lexLt x y = true)
    (h2 : lexLe y z = true) : lexLt x z = true := by
  simp only [lexLe, Bool.not_eq_true'] at h2
  rcases lexLt_trichotomy y z with h | rfl | h
  · exact lexLt_trans h1 h
  · exact h1
  · rw [h2] at h
    cases h

theorem pairwise_getD_lexLe {symbols : List FileSymbol}
    (h : symbols.Pairwise (fun a b => symbolLe a b = true)) {i j : Nat}
    (hij : i < j) (hj : j < symbols.length) :
    lexLe (lowerName (symbols.getD i default)) (lowerName (symbols.getD j default)) = true := by
  have hi : i < symbols.length := Nat.lt_trans hij hj
  rw [getD_eq_getElem default hi, getD_eq_getElem default hj]
  exact List.pairwise_iff_getElem.mp h i j hi hj hij

theorem buildBatchesAux_keys (symbols : List FileSymbol)
    (hsorted : symbols.Pairwise (fun a b => symbolLe a b = true)) :
    ∀ (fuel idx last_batch_start : Nat),
      last_batch_start ≤ idx → idx < symbols.length →
      ((buildBatchesAux symbols fuel idx last_batch_start).map Prod.fst).Pairwise
          (fun x y => lexLt x y = true) ∧
      (∀ k ∈ (buildBatchesAux symbols fuel idx last_batch_start).map Prod.fst,
        lexLe (lowerName (symbols.getD last_batch_start default)) k = true) := by
  intro fuel
  induction fuel with
  | zero =>
    intro idx lbs _ _
    exact ⟨List.Pairwise.nil, by intro k hk; cases hk⟩
  | succ fuel ih =>
    intro idx lbs hle hidx
    unfold buildBatchesAux
    rw [if_pos hidx]
    cases hnext : symbols.get? (idx + 1) with
    | some next_symbol =>
      have hidx1 : idx + 1 < symbols.length := by
        rcases List.get?_eq_some.mp hnext with ⟨h1, _⟩
        exact h1
      have hnextD : symbols.getD (idx + 1) default = next_symbol := by
        rw [List.getD_eq_getElem?_getD, ← List.get?_eq_getElem?, hnext]
        rfl
      by_cases heq : lowerName (symbols.getD lbs default) == lowerName next_symbol
      · rw [if_pos (show (match some next_symbol with | some next_symbol => lowerName (symbols.getD lbs default) == lowerName next_symbol | none => false) = true from heq)]
        exact ih (idx + 1) lbs (by omega) hidx1
      · rw [if_neg (show ¬(match some next_symbol with | some next_symbol => lowerName (symbols.getD lbs default) == lowerName next_symbol | none => false) = true from heq)]
        have htail := ih (idx + 1) (idx + 1) (Nat.le_refl _) hidx1
        have hlt : lexLt (lowerName (symbols.getD lbs default))
            (lowerName (symbols.getD (idx + 1) default)) = true := by
          apply lexLt_of_lexLe_of_ne
          · exact pairwise_getD_lexLe hsorted (by omega) hidx1
          · rw [hnextD]
            intro hcontra
            exact heq (by rw [hcontra]; exact beq_self_eq_true _)
        constructor
        · rw [List.map_cons]
          refine List.pairwise_cons.mpr ⟨?_, htail.1⟩
          intro k hk
          exact lexLt_of_lexLt_of_lexLe hlt (htail.2 k hk)
        · rw [List.map_cons]
          intro k hk
          rcases List.mem_cons.mp hk with rfl | hk
          · exact lexLe_refl _
          · exact lexLe_of_lexLt (lexLt_of_lexLt_of_lexLe hlt (htail.2 k hk))
    | none =>
      rw [if_neg (show ¬(match (none : Option FileSymbol) with | some next_symbol => lowerName (symbols.getD lbs default) == lowerName next_symbol | none => false) = true from fun h => Bool.noConfusion h)]
      have hlen : symbols.length ≤ idx + 1 := List.get?_eq_none.mp hnext
      rw [buildBatchesAux_stop symbols fuel (idx + 1) (idx + 1) hlen]
      refine ⟨by simp, ?_⟩
      intro k hk
      have : k = lowerName (symbols.getD lbs default) := by simpa using hk
      rw [this]
      exact lexLe_refl _

/-- The keys of a built map are strictly ascending (in particular unique). -/
theorem new_map_keys_pairwise (symbols : List FileSymbol) :
    ((SymbolIndex.new symbols).map.map Prod.fst).Pairwise (fun x y => lexLt x y = true) := by
  have hsorted : (insertionSort symbolLe symbols).Pairwise (fun a b => symbolLe a b = true) :=
    pairwise_insertionSort symbolLe symbolLe_total (fun h1 h2 => symbolLe_trans h1 h2) symbols
  show ((buildBatches (insertionSort symbolLe symbols) 0 0).map Prod.fst).Pairwise _
  unfold buildBatches
  cases hz : (insertionSort symbolLe symbols).length with
  | zero =>
    rw [Nat.zero_sub]
    exact List.Pairwise.nil
  | succ m =>
    rw [Nat.sub_zero]
    exact (buildBatchesAux_keys _ hsorted _ 0 0 (Nat.le_refl 0) (by omega)).1

/-! ### The canonical per-key, per-index form of the unbounded search -/

/-- What the search loops append for index `idx` at union-stream key `k`: the
batch slice found by looking `k` up in the index's filtered stream, run through
the body filter chain. -/
def keyHit (self : Query) (idx : SymbolIndex) (k : List Nat) : List FileSymbol :=
  match (idx.searchStream self.lowercased).lookup k with
  | some v =>
    ((idx.symbols.drop (SymbolIndex.map_value_to_range v).1).take
      ((SymbolIndex.map_value_to_range v).2 - (SymbolIndex.map_value_to_range v).1)).filter
        (fun s => self.accepts s)
  | none => []

theorem keyHit_none {self : Query} {idx : SymbolIndex} {k : List Nat}
    (h : (idx.searchStream self.lowercased).lookup k = none) :
    keyHit self idx k = [] := by
  unfold keyHit
  rw [h]

theorem keyHit_some {self : Query} {idx : SymbolIndex} {k : List Nat} {v : Nat}
    (h : (idx.searchStream self.lowercased).lookup k = some v) :
    keyHit self idx k =
      ((idx.symbols.drop (SymbolIndex.map_value_to_range v).1).take
        ((SymbolIndex.map_value_to_range v).2 - (SymbolIndex.map_value_to_range v).1)).filter
          (fun s => self.accepts s) := by
  unfold keyHit
  rw [h]

theorem lookup_eq_some_of_mem :
    ∀ {l : List (List Nat × Nat)}, (l.map Prod.fst).Nodup →
      ∀ {k : List Nat} {v : Nat}, (k, v) ∈ l → l.lookup k = some v
  | [], _, _, _, hmem => absurd hmem (List.not_mem_nil _)
  | (k1, v1) :: rest, hnodup, k, v, hmem => by
    rw [List.map_cons] at hnodup
    rcases List.pairwise_cons.mp hnodup with ⟨hhead, htail⟩
    rcases List.mem_cons.mp hmem with heq | hmem1
    · injection heq with h1 h2
      subst h1
      subst h2
      simp [List.lookup]
    · have hne : (k == k1) = false := by
        rw [beq_eq_false_iff_ne]
        intro hcontra
        exact hhead k (List.mem_map_of_mem Prod.fst hmem1) hcontra.symm
      simpa [List.lookup, hne] using lookup_eq_some_of_mem htail hmem1

theorem mem_of_lookup_eq_some :
    ∀ {l : List (List Nat × Nat)} {k : List Nat} {v : Nat},
      l.lookup k = some v → (k, v) ∈ l
  | [], _, _, h => by cases h
  | (k1, v1) :: rest, k, v, h => by
    by_cases hk : (k == k1) = true
    · have hv : some v1 = some v := by simpa [List.lookup, hk] using h
      injection hv with hv
      rw [beq_iff_eq.mp hk, hv]
      exact List.mem_cons_self _ _
    · have h1 : List.lookup k rest = some v := by
        simpa [List.lookup, hk] using h
      exact List.mem_cons_of_mem _ (mem_of_lookup_eq_some h1)

theorem flatMap_congr {l : List κ} {f g : κ → List β} (h : ∀ a ∈ l, f a = g a) :
    l.flatMap f = l.flatMap g := by
  induction l with
  | nil => rfl
  | cons a l ih =>
    rw [List.flatMap_cons, List.flatMap_cons, h a (List.mem_cons_self a l),
      ih (fun x hx => h x (List.mem_cons_of_mem a hx))]

theorem flatMap_filter_nonEmpty (g : κ → List β) :
    ∀ l : List κ, l.flatMap g = (l.filter (fun k => !(g k).isEmpty)).flatMap g
  | [] => rfl
  | k :: l => by
    rw [List.flatMap_cons, List.filter_cons]
    by_cases hk : (g k).isEmpty = true
    · rw [if_neg (show ¬(!(g k).isEmpty) = true by rw [hk]; simp)]
      rw [List.isEmpty_iff.mp hk, List.nil_append]
      exact flatMap_filter_nonEmpty g l
    · have hk1 : (!(g k).isEmpty) = true := by
        cases hgk : (g k).isEmpty
        · rfl
        · exact absurd hgk hk
      rw [if_pos hk1, List.flatMap_cons, ← flatMap_filter_nonEmpty g l]

theorem strictSorted_eq_of_mem_iff :
    ∀ {l1 l2 : List (List Nat)},
      l1.Pairwise (fun x y => lexLt x y = true) →
      l2.Pairwise (fun x y => lexLt x y = true) →
      (∀ k, k ∈ l1 ↔ k ∈ l2) → l1 = l2
  | [], [], _, _, _ => rfl
  | [], b :: l2, _, _, hmem =>
    absurd ((hmem b).mpr (List.mem_cons_self b l2)) (List.not_mem_nil b)
  | a :: l1, [], _, _, hmem =>
    absurd ((hmem a).mp (List.mem_cons_self a l1)) (List.not_mem_nil a)
  | a :: l1, b :: l2, h1, h2, hmem => by
    rcases List.pairwise_cons.mp h1 with ⟨ha, h1t⟩
    rcases List.pairwise_cons.mp h2 with ⟨hb, h2t⟩
    have hab : a = b := by
      rcases List.mem_cons.mp ((hmem a).mp (List.mem_cons_self a l1)) with h | hal2
      · exact h
      · rcases List.mem_cons.mp ((hmem b).mpr (List.mem_cons_self b l2)) with h | hbl1
        · exact h.symm
        · have hcontra := lexLt_trans (ha b hbl1) (hb a hal2)
          rw [lexLt_irrefl] at hcontra
          cases hcontra
    subst hab
    have htails : ∀ k, k ∈ l1 ↔ k ∈ l2 := by
      intro k
      constructor
      · intro hk
        rcases List.mem_cons.mp ((hmem k).mp (List.mem_cons_of_mem a hk)) with rfl | h
        · have hcontra := ha k hk
          rw [lexLt_irrefl] at hcontra
          cases hcontra
        · exact h
      · intro hk
        rcases List.mem_cons.mp ((hmem k).mpr (List.mem_cons_of_mem a hk)) with rfl | h
        · have hcontra := hb k hk
          rw [lexLt_irrefl] at hcontra
          cases hcontra
        · exact h
    rw [strictSorted_eq_of_mem_iff h1t h2t htails]

theorem unionKeys_pairwise (streams : List (List (List Nat × Nat))) :
    (unionKeys streams).Pairwise (fun x y => lexLt x y = true) := by
  unfold unionKeys
  have hsorted := pairwise_insertionSort lexLe lexLe_total (fun h1 h2 => lexLe_trans h1 h2)
    (streams.flatMap (fun s => s.map Prod.fst))
  have hle := hsorted.sublist (List.dedup_sublist _)
  have hnd : (insertionSort lexLe (streams.flatMap (fun s => s.map Prod.fst))).dedup.Nodup :=
    List.nodup_dedup _
  exact (List.pairwise_and_iff.mpr ⟨hle, hnd⟩).imp
    (fun h => lexLt_of_lexLe_of_ne h.1 h.2)

theorem mem_unionKeys {streams : List (List (List Nat × Nat))} {k : List Nat} :
    k ∈ unionKeys streams ↔ ∃ s ∈ streams, ∃ v, (k, v) ∈ s := by
  unfold unionKeys
  rw [List.mem_dedup, (insertionSort_perm _ _).mem_iff, List.mem_flatMap]
  constructor
  · rintro ⟨s, hs, hk⟩
    rcases List.mem_map.mp hk with ⟨kv, hkv, hfst⟩
    exact ⟨s, hs, kv.2, by rw [← hfst]; exact hkv⟩
  · rintro ⟨s, hs, v, hv⟩
    exact ⟨s, hs, List.mem_map.mpr ⟨(k, v), hv, rfl⟩⟩

theorem enum_hits_eq_keyHit (self : Query) (k : List Nat) :
    ∀ (indices : List SymbolIndex) (n : Nat) (outer : List SymbolIndex),
      (∀ j, j < indices.length → outer.getD (n + j) default = indices.getD j default) →
      (((indices.map (fun i => i.searchStream self.lowercased)).enumFrom n).filterMap
          (fun is => (is.2.lookup k).map (fun v => (is.1, v)))).flatMap
        (fun iv =>
          (((outer.getD iv.1 default).symbols.drop
              (SymbolIndex.map_value_to_range iv.2).1).take
            ((SymbolIndex.map_value_to_range iv.2).2 -
              (SymbolIndex.map_value_to_range iv.2).1)).filter (fun s => self.accepts s))
      = indices.flatMap (fun idx => keyHit self idx k)
  | [], n, outer, houter => rfl
  | idx :: rest, n, outer, houter => by
    rw [List.map_cons, List.enumFrom_cons, List.filterMap_cons]
    have hout0 : outer.getD (n + 0) default = idx := houter 0 (by simp)
    rw [Nat.add_zero] at hout0
    have houter1 : ∀ j, j < rest.length →
        outer.getD ((n + 1) + j) default = rest.getD j default := by
      intro j hj
      have := houter (j + 1) (by simpa using Nat.succ_lt_succ hj)
      rw [show n + (j + 1) = (n + 1) + j by omega] at this
      simpa using this
    cases hlk : (idx.searchStream self.lowercased).lookup k with
    | none =>
      show (((rest.map (fun i => i.searchStream self.lowercased)).enumFrom (n + 1)).filterMap
          (fun is => (is.2.lookup k).map (fun v => (is.1, v)))).flatMap _ = _
      rw [List.flatMap_cons, keyHit_none hlk, List.nil_append]
      exact enum_hits_eq_keyHit self k rest (n + 1) outer houter1
    | some v =>
      show ((n, v) :: ((rest.map (fun i => i.searchStream self.lowercased)).enumFrom
            (n + 1)).filterMap (fun is => (is.2.lookup k).map (fun v => (is.1, v)))).flatMap
          _ = _
      rw [List.flatMap_cons, List.flatMap_cons, keyHit_some hlk]
      show (((outer.getD n default).symbols.drop _).take _).filter _ ++ _ = _
      rw [hout0]
      exact congrArg _ (enum_hits_eq_keyHit self k rest (n + 1) outer houter1)

/-- The unbounded search, in canonical per-key, per-index form. -/
theorem searchUnbounded_canonical (self : Query) (indices : List SymbolIndex) :
    self.searchUnbounded indices =
      (unionKeys (indices.map (fun i => i.searchStream self.lowercased))).flatMap
        (fun k => indices.flatMap (fun idx => keyHit self idx k)) := by
  show ((unionKeys (indices.map (fun i => i.searchStream self.lowercased))).map
      (fun k => (k, ((indices.map (fun i => i.searchStream self.lowercased)).enum).filterMap
        (fun is => (is.2.lookup k).map (fun v => (is.1, v)))))).flatMap _ = _
  rw [List.flatMap_map]
  apply flatMap_congr
  intro k _
  show (((indices.map (fun i => i.searchStream self.lowercased)).enum).filterMap
      (fun is => (is.2.lookup k).map (fun v => (is.1, v)))).flatMap _ = _
  have h := enum_hits_eq_keyHit self k indices 0 indices
    (by intro j hj; rw [Nat.zero_add])
  exact h

/-! ### Built indexes: slices are name-filters of the sorted table -/

theorem mem_iff_getD {l : List FileSymbol} {s : FileSymbol} :
    s ∈ l ↔ ∃ i, i < l.length ∧ l.getD i default = s := by
  rw [List.mem_iff_getElem]
  constructor
  · rintro ⟨n, h, hget⟩
    exact ⟨n, h, by rw [getD_eq_getElem default h]; exact hget⟩
  · rintro ⟨n, h, hget⟩
    exact ⟨n, h, by rw [← getD_eq_getElem default h]; exact hget⟩

theorem slice_getD {symbols : List FileSymbol} {a e j : Nat} (hj : j < e - a)
    (hlen : a + j < symbols.length) :
    ((symbols.drop a).take (e - a)).getD j default = symbols.getD (a + j) default := by
  have hjlen : j < ((symbols.drop a).take (e - a)).length := by
    simp only [List.length_take, List.length_drop]
    omega
  rw [getD_eq_getElem default hjlen, getD_eq_getElem default hlen]
  simp

theorem drop_getD {symbols : List FileSymbol} {e j : Nat} (h : e + j < symbols.length) :
    (symbols.drop e).getD j default = symbols.getD (e + j) default := by
  have hj : j < (symbols.drop e).length := by
    rw [List.length_drop]
    omega
  rw [getD_eq_getElem default hj, getD_eq_getElem default h]
  simp

theorem mem_slice_iff {symbols : List FileSymbol} {a e : Nat} (he : e ≤ symbols.length)
    {s : FileSymbol} :
    s ∈ (symbols.drop a).take (e - a) ↔
      ∃ i, a ≤ i ∧ i < e ∧ symbols.getD i default = s := by
  rw [mem_iff_getD]
  have hlen : ((symbols.drop a).take (e - a)).length =
      min (e - a) (symbols.length - a) := by
    simp [List.length_take, List.length_drop]
  constructor
  · rintro ⟨j, hj, hget⟩
    rw [hlen, Nat.lt_min] at hj
    refine ⟨a + j, by omega, by omega, ?_⟩
    rw [← @slice_getD symbols a e j (by omega) (by omega)]
    exact hget
  · rintro ⟨i, hai, hie, hget⟩
    refine ⟨i - a, by rw [hlen]; exact Nat.lt_min.mpr (by omega), ?_⟩
    rw [@slice_getD symbols a e (i - a) (by omega) (by omega),
      show a + (i - a) = i by omega]
    exact hget

theorem batchChain_mem_drop_key {symbols : List FileSymbol} {a : Nat}
    {entries : List (List Nat × Nat)} (h : batchChain symbols a entries)
    {s : FileSymbol} (hs : s ∈ symbols.drop a) :
    ∃ kv ∈ entries, lowerName s = kv.1 := by
  rcases mem_iff_getD.mp hs with ⟨j, hj, hget⟩
  rw [List.length_drop] at hj
  have hlen : a + j < symbols.length := by omega
  rw [drop_getD hlen] at hget
  rcases batchChain_cover h (a + j) (by omega) hlen with ⟨kv, hkv, hb1, hb2⟩
  refine ⟨kv, hkv, ?_⟩
  rw [← hget]
  exact (batchChain_mem_bounds h kv hkv).2.2.2 (a + j) hb1 hb2

theorem chain_filter_name {symbols : List FileSymbol} :
    ∀ {a : Nat} {entries : List (List Nat × Nat)}, batchChain symbols a entries →
      (entries.map Prod.fst).Pairwise (fun x y => lexLt x y = true) →
      ∀ kv ∈ entries,
        (symbols.drop a).filter (fun s => lowerName s == kv.1) =
          (symbols.drop (SymbolIndex.map_value_to_range kv.2).1).take
            ((SymbolIndex.map_value_to_range kv.2).2 -
              (SymbolIndex.map_value_to_range kv.2).1)
  | _, [], _, _, kv, hkv => absurd hkv (List.not_mem_nil kv)
  | a, x :: rest, hch, hkeys, kv, hkv => by
    obtain ⟨e, hdec, hlt, hle, hkey, htail⟩ := hch
    rw [List.map_cons] at hkeys
    rcases List.pairwise_cons.mp hkeys with ⟨hhead, htkeys⟩
    have hsplit : symbols.drop a = (symbols.drop a).take (e - a) ++ symbols.drop e := by
      have hdd : symbols.drop e = (symbols.drop a).drop (e - a) := by
        rw [List.drop_drop]
        congr 1
        omega
      rw [hdd, List.take_append_drop]
    rcases List.mem_cons.mp hkv with rfl | hkv1
    · rw [hsplit, List.filter_append]
      have h1 : ((symbols.drop a).take (e - a)).filter
          (fun s => lowerName s == kv.1) = (symbols.drop a).take (e - a) := by
        apply List.filter_eq_self.mpr
        intro s hs
        rcases (mem_slice_iff hle).mp hs with ⟨i, hi1, hi2, hget⟩
        rw [beq_iff_eq, ← hget]
        exact hkey i hi1 hi2
      have h2 : (symbols.drop e).filter (fun s => lowerName s == kv.1) = [] := by
        apply List.filter_eq_nil_iff.mpr
        intro s hs hcontra
        rcases batchChain_mem_drop_key htail hs with ⟨kv2, hkv2, hkey2⟩
        have hlt2 := hhead kv2.1 (List.mem_map_of_mem Prod.fst hkv2)
        rw [beq_iff_eq] at hcontra
        rw [hcontra] at hkey2
        rw [hkey2] at hlt2
        rw [lexLt_irrefl] at hlt2
        cases hlt2
      rw [h1, h2, List.append_nil, hdec]
    · rw [hsplit, List.filter_append]
      have h1 : ((symbols.drop a).take (e - a)).filter
          (fun s => lowerName s == kv.1) = [] := by
        apply List.filter_eq_nil_iff.mpr
        intro s hs hcontra
        rcases (mem_slice_iff hle).mp hs with ⟨i, hi1, hi2, hget⟩
        have hkeyx : lowerName s = x.1 := by
          rw [← hget]
          exact hkey i hi1 hi2
        have hlt2 := hhead kv.1 (List.mem_map_of_mem Prod.fst hkv1)
        rw [beq_iff_eq] at hcontra
        rw [hkeyx] at hcontra
        rw [hcontra] at hlt2
        rw [lexLt_irrefl] at hlt2
        cases hlt2
      rw [h1, List.nil_append]
      exact chain_filter_name htail htkeys kv hkv1

/-! ### The per-key hit of a built index -/

/-- For a built index, the hit at key `k` is: nothing unless the automaton
accepts `k`; otherwise exactly the records whose lowercased name is `k`, run
through the filter chain, in table order. -/
theorem keyHit_built (self : Query) (syms : List FileSymbol)
    (hn : syms.length < 2 ^ 32) (k : List Nat) :
    keyHit self (SymbolIndex.new syms) k =
      if subsequenceMatch self.lowercased k then
        (SymbolIndex.new syms).symbols.filter
          (fun s => lowerName s == k && self.accepts s)
      else [] := by
  have hchain := new_map_chain syms hn
  have hkeys := new_map_keys_pairwise syms
  have hkeysnd : ((SymbolIndex.new syms).map.map Prod.fst).Nodup :=
    hkeys.imp (fun h hcontra => by
      rw [hcontra, lexLt_irrefl] at h
      cases h)
  have hstreamnd : (((SymbolIndex.new syms).searchStream self.lowercased).map
      Prod.fst).Nodup :=
    hkeysnd.sublist (List.Sublist.map Prod.fst (List.filter_sublist _))
  cases hlk : ((SymbolIndex.new syms).searchStream self.lowercased).lookup k with
  | some v =>
    have hmem : (k, v) ∈ (SymbolIndex.new syms).searchStream self.lowercased :=
      mem_of_lookup_eq_some hlk
    have hmemmap : (k, v) ∈ (SymbolIndex.new syms).map :=
      List.mem_of_mem_filter hmem
    have hsubseq : subsequenceMatch self.lowercased k = true :=
      (List.mem_filter.mp hmem).2
    rw [keyHit_some hlk, if_pos hsubseq]
    have hfil := chain_filter_name hchain hkeys (k, v) hmemmap
    rw [List.drop_zero] at hfil
    rw [← hfil, List.filter_filter]
    apply List.filter_congr
    intro s _
    rw [Bool.and_comm]
  | none =>
    rw [keyHit_none hlk]
    by_cases hsub : subsequenceMatch self.lowercased k = true
    · rw [if_pos hsub]
      symm
      apply List.filter_eq_nil_iff.mpr
      intro s hs hcontra
      rw [Bool.and_eq_true, beq_iff_eq] at hcontra
      rcases mem_iff_getD.mp hs with ⟨i, hi, hget⟩
      rcases batchChain_cover hchain i (Nat.zero_le _) hi with ⟨kv, hkv, hb1, hb2⟩
      have hkeyi := (batchChain_mem_bounds hchain kv hkv).2.2.2 i hb1 hb2
      rw [hget] at hkeyi
      have hkvk : kv.1 = k := by rw [← hkeyi, hcontra.1]
      have hmemstream : (k, kv.2) ∈
          (SymbolIndex.new syms).searchStream self.lowercased := by
        apply List.mem_filter.mpr
        refine ⟨?_, hsub⟩
        rw [← hkvk]
        exact hkv
      have hsome := lookup_eq_some_of_mem hstreamnd hmemstream
      rw [hlk] at hsome
      cases hsome
    · rw [if_neg hsub]

/-! ### Summing hits over a sorted superset of the stream keys -/

theorem flatMap_keyHit_eq_of_sup (self : Query) (idx : SymbolIndex)
    {KS1 KS2 : List (List Nat)}
    (h1 : KS1.Pairwise (fun x y => lexLt x y = true))
    (h2 : KS2.Pairwise (fun x y => lexLt x y = true))
    (hm1 : ∀ k v, (k, v) ∈ idx.searchStream self.lowercased → k ∈ KS1)
    (hm2 : ∀ k v, (k, v) ∈ idx.searchStream self.lowercased → k ∈ KS2) :
    KS1.flatMap (fun k => keyHit self idx k) =
      KS2.flatMap (fun k => keyHit self idx k) := by
  rw [flatMap_filter_nonEmpty (fun k => keyHit self idx k) KS1,
    flatMap_filter_nonEmpty (fun k => keyHit self idx k) KS2]
  congr 1
  refine strictSorted_eq_of_mem_iff (h1.filter _) (h2.filter _) ?_
  intro k
  simp only [List.mem_filter]
  constructor
  · rintro ⟨_, hne⟩
    refine ⟨?_, hne⟩
    cases hlk : (idx.searchStream self.lowercased).lookup k with
    | none =>
      rw [keyHit_none hlk] at hne
      cases hne
    | some v => exact hm2 k v (mem_of_lookup_eq_some hlk)
  · rintro ⟨_, hne⟩
    refine ⟨?_, hne⟩
    cases hlk : (idx.searchStream self.lowercased).lookup k with
    | none =>
      rw [keyHit_none hlk] at hne
      cases hne
    | some v => exact hm1 k v (mem_of_lookup_eq_some hlk)

theorem filter_flatMap_eq (l : List κ) (p : κ → Bool) (f : κ → List β) :
    (l.filter p).flatMap f = l.flatMap (fun x => if p x then f x else []) := by
  induction l with
  | nil => rfl
  | cons x l ih =>
    rw [List.filter_cons]
    by_cases hx : p x = true
    · rw [if_pos hx, List.flatMap_cons, List.flatMap_cons, if_pos hx, ih]
    · rw [if_neg hx, List.flatMap_cons, if_neg hx, List.nil_append, ih]

theorem flatMap_filter_comm (l : List κ) (f : κ → List β) (p : β → Bool) :
    l.flatMap (fun x => (f x).filter p) = (l.flatMap f).filter p := by
  induction l with
  | nil => rfl
  | cons x l ih =>
    rw [List.flatMap_cons, List.flatMap_cons, List.filter_append, ih]

/-- Summing the hits of one built index over any strictly-sorted key list
containing all its stream keys yields exactly the automaton-and-filter-chain
filter of its table, in table order. -/
theorem flatMap_keyHit_built (self : Query) (syms : List FileSymbol)
    (hn : syms.length < 2 ^ 32) (KS : List (List Nat))
    (hKS : KS.Pairwise (fun x y => lexLt x y = true))
    (hsup : ∀ k v, (k, v) ∈ (SymbolIndex.new syms).searchStream self.lowercased →
      k ∈ KS) :
    KS.flatMap (fun k => keyHit self (SymbolIndex.new syms) k) =
      (SymbolIndex.new syms).symbols.filter
        (fun s => subsequenceMatch self.lowercased (lowerName s) && self.accepts s) := by
  have hchain := new_map_chain syms hn
  have hkeys := new_map_keys_pairwise syms
  have hkeysnd : ((SymbolIndex.new syms).map.map Prod.fst).Nodup :=
    hkeys.imp (fun h hcontra => by
      rw [hcontra, lexLt_irrefl] at h
      cases h)
  have hstreamnd : (((SymbolIndex.new syms).searchStream self.lowercased).map
      Prod.fst).Nodup :=
    hkeysnd.sublist (List.Sublist.map Prod.fst (List.filter_sublist _))
  have hstreamsorted : (((SymbolIndex.new syms).searchStream self.lowercased).map
      Prod.fst).Pairwise (fun x y => lexLt x y = true) :=
    hkeys.sublist (List.Sublist.map Prod.fst (List.filter_sublist _))
  rw [flatMap_keyHit_eq_of_sup self (SymbolIndex.new syms) hKS hstreamsorted hsup
    (fun k v hkv => List.mem_map_of_mem Prod.fst hkv)]
  rw [List.flatMap_map]
  have hstep : (((SymbolIndex.new syms).searchStream self.lowercased).flatMap
      (fun kv => keyHit self (SymbolIndex.new syms) kv.1)) =
      ((SymbolIndex.new syms).searchStream self.lowercased).flatMap
        (fun kv =>
          (((SymbolIndex.new syms).symbols.drop
              (SymbolIndex.map_value_to_range kv.2).1).take
            ((SymbolIndex.map_value_to_range kv.2).2 -
              (SymbolIndex.map_value_to_range kv.2).1)).filter
            (fun s => self.accepts s)) := by
    apply flatMap_congr
    intro kv hkv
    exact keyHit_some (lookup_eq_some_of_mem hstreamnd hkv)
  rw [hstep]
  show (((SymbolIndex.new syms).map.filter
      (fun kv => subsequenceMatch self.lowercased kv.1)).flatMap _) = _
  rw [filter_flatMap_eq]
  have hstep2 : ((SymbolIndex.new syms).map.flatMap
      (fun kv => if subsequenceMatch self.lowercased kv.1 then
        (((SymbolIndex.new syms).symbols.drop
            (SymbolIndex.map_value_to_range kv.2).1).take
          ((SymbolIndex.map_value_to_range kv.2).2 -
            (SymbolIndex.map_value_to_range kv.2).1)).filter
          (fun s => self.accepts s)
        else [])) =
      ((SymbolIndex.new syms).map.flatMap
        (fun kv =>
          (((SymbolIndex.new syms).symbols.drop
              (SymbolIndex.map_value_to_range kv.2).1).take
            ((SymbolIndex.map_value_to_range kv.2).2 -
              (SymbolIndex.map_value_to_range kv.2).1)).filter
            (fun s => subsequenceMatch self.lowercased (lowerName s) &&
              self.accepts s))) := by
    apply flatMap_congr
    intro kv hkv
    have hb := batchChain_mem_bounds hchain kv hkv
    have hallk : ∀ s ∈ ((SymbolIndex.new syms).symbols.drop
        (SymbolIndex.map_value_to_range kv.2).1).take
          ((SymbolIndex.map_value_to_range kv.2).2 -
            (SymbolIndex.map_value_to_range kv.2).1),
        lowerName s = kv.1 := by
      intro s hs
      rcases (mem_slice_iff hb.2.2.1).mp hs with ⟨i, hi1, hi2, hget⟩
      rw [← hget]
      exact hb.2.2.2 i hi1 hi2
    by_cases hsub : subsequenceMatch self.lowercased kv.1 = true
    · rw [if_pos hsub]
      apply List.filter_congr
      intro s hs
      rw [hallk s hs, hsub, Bool.true_and]
    · rw [if_neg hsub]
      symm
      apply List.filter_eq_nil_iff.mpr
      intro s hs hcontra
      rw [Bool.and_eq_true] at hcontra
      rw [hallk s hs] at hcontra
      exact hsub hcontra.1
  rw [hstep2, flatMap_filter_comm, batchChain_flatMap_slice hchain, List.drop_zero]

/-- The unbounded search over one built index is exactly the filter of its
sorted table by the automaton and the filter chain, in table order. -/
theorem searchUnbounded_single (self : Query) (syms : List FileSymbol)
    (hn : syms.length < 2 ^ 32) :
    self.searchUnbounded [SymbolIndex.new syms] =
      (SymbolIndex.new syms).symbols.filter
        (fun s => subsequenceMatch self.lowercased (lowerName s) && self.accepts s) := by
  rw [searchUnbounded_canonical]
  rw [flatMap_congr (fun k _ => show ([SymbolIndex.new syms].flatMap
    (fun idx => keyHit self idx k)) = keyHit self (SymbolIndex.new syms) k by simp)]
  apply flatMap_keyHit_built self syms hn _ (unionKeys_pairwise _)
  intro k v hkv
  apply mem_unionKeys.mpr
  exact ⟨(SymbolIndex.new syms).searchStream self.lowercased, by simp, v, hkv⟩

/-! ### Commuting a double flatMap, up to permutation -/

theorem flatMap_const_nil (xs : List ι) : xs.flatMap (fun _ => ([] : List β)) = [] := by
  induction xs with
  | nil => rfl
  | cons x xs ih => rw [List.flatMap_cons, List.nil_append, ih]

theorem flatMap_append_perm (xs : List ι) (g h : ι → List β) :
    (xs.flatMap (fun x => g x ++ h x)).Perm (xs.flatMap g ++ xs.flatMap h) := by
  induction xs with
  | nil => exact List.Perm.refl _
  | cons x xs ih =>
    rw [List.flatMap_cons, List.flatMap_cons, List.flatMap_cons]
    refine (ih.append_left (g x ++ h x)).trans ?_
    have e1 : (g x ++ h x) ++ (xs.flatMap g ++ xs.flatMap h) =
        g x ++ ((h x ++ xs.flatMap g) ++ xs.flatMap h) := by
      simp [List.append_assoc]
    have e2 : (g x ++ xs.flatMap g) ++ (h x ++ xs.flatMap h) =
        g x ++ ((xs.flatMap g ++ h x) ++ xs.flatMap h) := by
      simp [List.append_assoc]
    rw [e1, e2]
    exact (List.perm_append_comm.append_right _).append_left _

theorem flatMap_swap_perm (ks : List κ) (xs : List ι) (f : κ → ι → List β) :
    (ks.flatMap (fun k => xs.flatMap (fun x => f k x))).Perm
      (xs.flatMap (fun x => ks.flatMap (fun k => f k x))) := by
  induction ks with
  | nil =>
    have h1 : xs.flatMap (fun x => ([] : List κ).flatMap (fun k => f k x)) =
        xs.flatMap (fun _ => []) := flatMap_congr (fun x _ => rfl)
    rw [h1, flatMap_const_nil]
    exact List.Perm.refl _
  | cons k ks ih =>
    rw [List.flatMap_cons]
    have hsplit : xs.flatMap (fun x => (k :: ks).flatMap (fun k1 => f k1 x)) =
        xs.flatMap (fun x => f k x ++ ks.flatMap (fun k1 => f k1 x)) :=
      flatMap_congr (fun x _ => by rw [List.flatMap_cons])
    rw [hsplit]
    exact (ih.append_left _).trans (flatMap_append_perm xs (f k) _).symm

/-- The union stream is additive across two indexes, up to permutation. -/
theorem searchUnbounded_pair_perm (self : Query) (A B : SymbolIndex) :
    (self.searchUnbounded [A, B]).Perm
      (self.searchUnbounded [A] ++ self.searchUnbounded [B]) := by
  rw [searchUnbounded_canonical self [A, B], searchUnbounded_canonical self [A],
    searchUnbounded_canonical self [B]]
  rw [flatMap_congr (fun k _ => show ([A, B].flatMap (fun idx => keyHit self idx k)) =
    keyHit self A k ++ keyHit self B k by simp)]
  rw [flatMap_congr (fun k _ => show ([A].flatMap (fun idx => keyHit self idx k)) =
    keyHit self A k by simp)]
  rw [flatMap_congr (fun k _ => show ([B].flatMap (fun idx => keyHit self idx k)) =
    keyHit self B k by simp)]
  refine (flatMap_append_perm _ _ _).trans ?_
  have heqA : (unionKeys ([A, B].map (fun i => i.searchStream self.lowercased))).flatMap
      (fun k => keyHit self A k) =
      (unionKeys ([A].map (fun i => i.searchStream self.lowercased))).flatMap
        (fun k => keyHit self A k) := by
    apply flatMap_keyHit_eq_of_sup self A (unionKeys_pairwise _) (unionKeys_pairwise _)
    · intro k v hkv
      exact mem_unionKeys.mpr ⟨A.searchStream self.lowercased, by simp, v, hkv⟩
    · intro k v hkv
      exact mem_unionKeys.mpr ⟨A.searchStream self.lowercased, by simp, v, hkv⟩
  have heqB : (unionKeys ([A, B].map (fun i => i.searchStream self.lowercased))).flatMap
      (fun k => keyHit self B k) =
      (unionKeys ([B].map (fun i => i.searchStream self.lowercased))).flatMap
        (fun k => keyHit self B k) := by
    apply flatMap_keyHit_eq_of_sup self B (unionKeys_pairwise _) (unionKeys_pairwise _)
    · intro k v hkv
      exact mem_unionKeys.mpr ⟨B.searchStream self.lowercased, by simp, v, hkv⟩
    · intro k v hkv
      exact mem_unionKeys.mpr ⟨B.searchStream self.lowercased, by simp, v, hkv⟩
  rw [heqA, heqB]

/-- A concrete record with the given name and kind, used to instantiate
theorems on concrete inputs. -/
def exampleSymbol (name : List Nat) (kind : FileSymbolKind) : FileSymbol :=
  { name := name, loc := { hir_file_id := 0, ptr := 0, name_ptr := 0 },
    kind := kind, container_name := none }

/-- C1: `SymbolIndex::new` yields a table sorted by ASCII-lowercase name; every
map entry decodes to a range `[s, e)` with `s < e` and `e ≤ symbols.len()` all
of whose members have lowercased name equal to the entry's key; and the stored
ranges partition `0..symbols.len()` (every position lies in exactly one stored
range). -/
theorem claim_new_invariants (symbols : List FileSymbol)
    (hn : symbols.length < 2 ^ 32) :
    (SymbolIndex.new symbols).symbols.Pairwise (fun a b => symbolLe a b = true) ∧
    (∀ kv ∈ (SymbolIndex.new symbols).map,
      (SymbolIndex.map_value_to_range kv.2).1 < (SymbolIndex.map_value_to_range kv.2).2 ∧
      (SymbolIndex.map_value_to_range kv.2).2 ≤ (SymbolIndex.new symbols).symbols.length ∧
      (∀ i, (SymbolIndex.map_value_to_range kv.2).1 ≤ i →
        i < (SymbolIndex.map_value_to_range kv.2).2 →
        lowerName ((SymbolIndex.new symbols).symbols.getD i default) = kv.1)) ∧
    (∀ i, i < (SymbolIndex.new symbols).symbols.length →
      ∃! kv, kv ∈ (SymbolIndex.new symbols).map ∧
        (SymbolIndex.map_value_to_range kv.2).1 ≤ i ∧
        i < (SymbolIndex.map_value_to_range kv.2).2) := by
  have hchain := new_map_chain symbols hn
  refine ⟨?_, ?_, ?_⟩
  · exact pairwise_insertionSort symbolLe symbolLe_total
      (fun h1 h2 => symbolLe_trans h1 h2) symbols
  · intro kv hkv
    have h := batchChain_mem_bounds hchain kv hkv
    exact ⟨h.2.1, h.2.2.1, h.2.2.2⟩
  · intro i hi
    rcases batchChain_cover hchain i (Nat.zero_le _) hi with ⟨kv, hkv, hb⟩
    refine ⟨kv, ⟨hkv, hb⟩, ?_⟩
    rintro kv' ⟨hkv', hb'⟩
    exact batchChain_disjoint hchain kv' hkv' kv hkv i hb'.1 hb'.2 hb.1 hb.2

theorem claim_new_invariants_witness :
    ([exampleSymbol [66, 97] .Struct, exampleSymbol [98, 97] .Function,
        exampleSymbol [99] .Const].length < 2 ^ 32) ∧
      ((SymbolIndex.new [exampleSymbol [66, 97] .Struct, exampleSymbol [98, 97] .Function,
          exampleSymbol [99] .Const]).symbols.Pairwise (fun a b => symbolLe a b = true) ∧
        (∀ kv ∈ (SymbolIndex.new [exampleSymbol [66, 97] .Struct,
            exampleSymbol [98, 97] .Function, exampleSymbol [99] .Const]).map,
          (SymbolIndex.map_value_to_range kv.2).1 < (SymbolIndex.map_value_to_range kv.2).2 ∧
          (SymbolIndex.map_value_to_range kv.2).2 ≤
            (SymbolIndex.new [exampleSymbol [66, 97] .Struct,
              exampleSymbol [98, 97] .Function,
              exampleSymbol [99] .Const]).symbols.length ∧
          (∀ i, (SymbolIndex.map_value_to_range kv.2).1 ≤ i →
            i < (SymbolIndex.map_value_to_range kv.2).2 →
            lowerName ((SymbolIndex.new [exampleSymbol [66, 97] .Struct,
              exampleSymbol [98, 97] .Function,
              exampleSymbol [99] .Const]).symbols.getD i default) = kv.1)) ∧
        (∀ i, i < (SymbolIndex.new [exampleSymbol [66, 97] .Struct,
            exampleSymbol [98, 97] .Function, exampleSymbol [99] .Const]).symbols.length →
          ∃! kv, kv ∈ (SymbolIndex.new [exampleSymbol [66, 97] .Struct,
              exampleSymbol [98, 97] .Function, exampleSymbol [99] .Const]).map ∧
            (SymbolIndex.map_value_to_range kv.2).1 ≤ i ∧
            i < (SymbolIndex.map_value_to_range kv.2).2)) :=
  ⟨by norm_num, claim_new_invariants _ (by norm_num)⟩

/-- A query with `only_types`, `exact` and `case_sensitive` all clear accepts
every record. -/
theorem accepts_no_flags {self : Query} (hot : self.only_types = false)
    (hex : self.exact = false) (hcs : self.case_sensitive = false) (s : FileSymbol) :
    self.accepts s = true := by
  unfold Query.accepts
  rw [hot, hex, hcs]
  simp

/-- C10: searching one built index with the query built from the empty string
and no flags returns the index's whole (sorted) symbol table: the automaton
accepts every key, the default flags accept every record, the default limit is
unbounded, and the batches cover the table in order. -/
theorem claim_empty_query (syms : List FileSymbol) (hn : syms.length < 2 ^ 32) :
    (Query.new []).search [SymbolIndex.new syms] = (SymbolIndex.new syms).symbols := by
  rw [search_eq_take]
  have hunb : (Query.new []).searchUnbounded [SymbolIndex.new syms] =
      (SymbolIndex.new syms).symbols := by
    rw [searchUnbounded_single _ syms hn]
    apply List.filter_eq_self.mpr
    intro s _
    rw [Bool.and_eq_true]
    exact ⟨subsequenceMatch_nil (lowerName s), accepts_no_flags rfl rfl rfl s⟩
  rw [hunb]
  apply List.take_of_length_le
  have hlen : (SymbolIndex.new syms).symbols.length = syms.length :=
    (insertionSort_perm symbolLe syms).length_eq
  have hbig : (2 : Nat) ^ 32 ≤ max 1 ((Query.new []).limit) := by
    show (2 : Nat) ^ 32 ≤ max 1 (2 ^ 64 - 1)
    norm_num
  omega

theorem claim_empty_query_witness :
    ([exampleSymbol [98] .Struct, exampleSymbol [97] .Function].length < 2 ^ 32) ∧
      (Query.new []).search
          [SymbolIndex.new [exampleSymbol [98] .Struct, exampleSymbol [97] .Function]] =
        (SymbolIndex.new [exampleSymbol [98] .Struct,
          exampleSymbol [97] .Function]).symbols :=
  ⟨by norm_num, claim_empty_query _ (by norm_num)⟩

/-- C2: every record of a built index whose lowercased name contains the
lowercased query as an ordered subsequence appears in the result of `search`
with no flags set (the default limit is unbounded, so no truncation occurs). -/
theorem claim_subsequence_completeness (q : List Nat) (syms : List FileSymbol)
    (hn : syms.length < 2 ^ 32) (s : FileSymbol)
    (hs : s ∈ (SymbolIndex.new syms).symbols)
    (hsub : subsequenceMatch (strToLower q) (lowerName s) = true) :
    s ∈ (Query.new q).search [SymbolIndex.new syms] := by
  rw [search_eq_take]
  have hunb := searchUnbounded_single (Query.new q) syms hn
  have hmem : s ∈ (Query.new q).searchUnbounded [SymbolIndex.new syms] := by
    rw [hunb]
    apply List.mem_filter.mpr
    refine ⟨hs, ?_⟩
    rw [Bool.and_eq_true]
    exact ⟨hsub, accepts_no_flags rfl rfl rfl s⟩
  have hlen2 : ((Query.new q).searchUnbounded [SymbolIndex.new syms]).length ≤
      max 1 (Query.new q).limit := by
    rw [hunb]
    have h1 := List.length_filter_le
      (fun s => subsequenceMatch (Query.new q).lowercased (lowerName s) &&
        (Query.new q).accepts s) (SymbolIndex.new syms).symbols
    have h2 : (SymbolIndex.new syms).symbols.length = syms.length :=
      (insertionSort_perm symbolLe syms).length_eq
    have h3 : (2 : Nat) ^ 32 ≤ max 1 ((Query.new q).limit) := by
      show (2 : Nat) ^ 32 ≤ max 1 (2 ^ 64 - 1)
      norm_num
    omega
  rw [List.take_of_length_le hlen2]
  exact hmem

theorem claim_subsequence_completeness_witness :
    ([exampleSymbol [70, 111, 111] .Struct].length < 2 ^ 32 ∧
      exampleSymbol [70, 111, 111] .Struct ∈
        (SymbolIndex.new [exampleSymbol [70, 111, 111] .Struct]).symbols ∧
      subsequenceMatch (strToLower [102, 111])
        (lowerName (exampleSymbol [70, 111, 111] .Struct)) = true) ∧
      exampleSymbol [70, 111, 111] .Struct ∈
        (Query.new [102, 111]).search
          [SymbolIndex.new [exampleSymbol [70, 111, 111] .Struct]] :=
  ⟨⟨by norm_num, by decide, by decide⟩,
    claim_subsequence_completeness [102, 111] [exampleSymbol [70, 111, 111] .Struct]
      (by norm_num) (exampleSymbol [70, 111, 111] .Struct) (by decide) (by decide)⟩

/-- C6: every record returned by `search` over one built index with no flags
set has the lowercased query as an ordered subsequence of its lowercased
name. -/
theorem claim_subsequence_soundness (q : List Nat) (_hq : q ≠ [])
    (syms : List FileSymbol) (hn : syms.length < 2 ^ 32) (s : FileSymbol)
    (hs : s ∈ (Query.new q).search [SymbolIndex.new syms]) :
    subsequenceMatch (strToLower q) (lowerName s) = true := by
  rw [search_eq_take] at hs
  have hmem := List.mem_of_mem_take hs
  rw [searchUnbounded_single _ syms hn] at hmem
  have h2 := (List.mem_filter.mp hmem).2
  rw [Bool.and_eq_true] at h2
  exact h2.1

theorem claim_subsequence_soundness_witness :
    (([102, 98] : List Nat) ≠ [] ∧
      [exampleSymbol [70, 111, 111, 66, 97, 114] .Struct].length < 2 ^ 32 ∧
      exampleSymbol [70, 111, 111, 66, 97, 114] .Struct ∈
        (Query.new [102, 98]).search
          [SymbolIndex.new [exampleSymbol [70, 111, 111, 66, 97, 114] .Struct]]) ∧
      subsequenceMatch (strToLower [102, 98])
        (lowerName (exampleSymbol [70, 111, 111, 66, 97, 114] .Struct)) = true :=
  ⟨⟨by decide, by norm_num, by decide⟩,
    claim_subsequence_soundness [102, 98] (by decide)
      [exampleSymbol [70, 111, 111, 66, 97, 114] .Struct] (by norm_num)
      (exampleSymbol [70, 111, 111, 66, 97, 114] .Struct) (by decide)⟩

/-- C8: with a limit no smaller than the unbounded result (in particular with
the unbounded default), search over `[A, B]` returns the same records, as a
multiset, as search over `[A]` together with search over `[B]`. -/
theorem claim_union_equivalence (q : Query) (A B : SymbolIndex)
    (h : (q.searchUnbounded [A, B]).length ≤ q.limit) :
    (q.search [A, B]).Perm (q.search [A] ++ q.search [B]) := by
  have hperm := searchUnbounded_pair_perm q A B
  have hlen := hperm.length_eq
  rw [List.length_append] at hlen
  rw [search_eq_take, search_eq_take, search_eq_take]
  rw [List.take_of_length_le (show (q.searchUnbounded [A, B]).length ≤
      max 1 q.limit by omega),
    List.take_of_length_le (show (q.searchUnbounded [A]).length ≤
      max 1 q.limit by omega),
    List.take_of_length_le (show (q.searchUnbounded [B]).length ≤
      max 1 q.limit by omega)]
  exact hperm

theorem claim_union_equivalence_witness :
    (((Query.new [97]).searchUnbounded
        [SymbolIndex.new [exampleSymbol [65, 108] .Struct],
          SymbolIndex.new [exampleSymbol [97, 109] .Function]]).length ≤
      (Query.new [97]).limit) ∧
      ((Query.new [97]).search
          [SymbolIndex.new [exampleSymbol [65, 108] .Struct],
            SymbolIndex.new [exampleSymbol [97, 109] .Function]]).Perm
        ((Query.new [97]).search [SymbolIndex.new [exampleSymbol [65, 108] .Struct]] ++
          (Query.new [97]).search [SymbolIndex.new [exampleSymbol [97, 109] .Function]]) :=
  ⟨by decide, claim_union_equivalence _ _ _ (by decide)⟩

/-! ### Congruence of `search` in the flag fields it ignores -/

theorem pushLoop_congr {q1 q2 : Query} (hacc : ∀ s, q1.accepts s = q2.accepts s)
    (hlim : q1.limit = q2.limit) :
    ∀ (syms res : List FileSymbol), q1.pushLoop syms res = q2.pushLoop syms res
  | [], _ => rfl
  | s :: rest, res => by
    have ih := pushLoop_congr hacc hlim rest
    simp only [Query.pushLoop, hacc s, hlim, ih]

theorem ivLoop_congr {q1 q2 : Query} (hacc : ∀ s, q1.accepts s = q2.accepts s)
    (hlim : q1.limit = q2.limit) (indices : List SymbolIndex) :
    ∀ (ivs : List (Nat × Nat)) (res : List FileSymbol),
      q1.ivLoop indices ivs res = q2.ivLoop indices ivs res
  | [], _ => rfl
  | iv :: rest, res => by
    have ih := ivLoop_congr hacc hlim indices rest
    simp only [Query.ivLoop, pushLoop_congr hacc hlim, ih]

theorem keyLoop_congr {q1 q2 : Query} (hacc : ∀ s, q1.accepts s = q2.accepts s)
    (hlim : q1.limit = q2.limit) (indices : List SymbolIndex) :
    ∀ (entries : List (List Nat × List (Nat × Nat))) (res : List FileSymbol),
      q1.keyLoop indices entries res = q2.keyLoop indices entries res
  | [], _ => rfl
  | e :: rest, res => by
    have ih := keyLoop_congr hacc hlim indices rest
    simp only [Query.keyLoop, ivLoop_congr hacc hlim, ih]

/-- `search` depends on the query only through the cached lowercase (the
automaton), the filter chain, and the limit. -/
theorem search_congr {q1 q2 : Query} (hacc : ∀ s, q1.accepts s = q2.accepts s)
    (hlim : q1.limit = q2.limit) (hlow : q1.lowercased = q2.lowercased)
    (indices : List SymbolIndex) : q1.search indices = q2.search indices := by
  unfold Query.search
  rw [hlow]
  exact keyLoop_congr hacc hlim indices _ []

/-- C5 counterexample: with `only_types` also set, a record reached by the
automaton whose name contains every query character is still rejected by the
kind filter, so the acceptance biconditional of the claim fails as stated. -/
theorem claim_case_sensitive_counterexample :
    ((((Query.new [97]).setOnlyTypes).setCaseSensitive).search
        [SymbolIndex.new [exampleSymbol [97] .Function]] = []) ∧
      (((Query.new [97]).setOnlyTypes).setCaseSensitive).exact = false ∧
      subsequenceMatch ((((Query.new [97]).setOnlyTypes).setCaseSensitive).lowercased)
        (lowerName (exampleSymbol [97] .Function)) = true ∧
      (∀ c ∈ (((Query.new [97]).setOnlyTypes).setCaseSensitive).query,
        c ∈ (exampleSymbol [97] .Function).name) := by
  decide

/-- C5 (amended: the acceptance biconditional additionally requires
`only_types` to be clear, since the kind filter runs first): over a built
index, a record is returned by the unbounded search iff it is in the table,
the automaton accepts its lowercased name, and every character of the query
occurs in its original-case name; and with `exact` set, `case_sensitive` has
no effect on `search`. -/
theorem claim_case_sensitive (q : Query) (hcs : q.case_sensitive = true)
    (hex : q.exact = false) (hot : q.only_types = false)
    (syms : List FileSymbol) (hn : syms.length < 2 ^ 32) (s : FileSymbol) :
    (s ∈ q.searchUnbounded [SymbolIndex.new syms] ↔
      s ∈ (SymbolIndex.new syms).symbols ∧
        subsequenceMatch q.lowercased (lowerName s) = true ∧
        ∀ c ∈ q.query, c ∈ s.name) ∧
    (∀ (q2 : Query) (indices : List SymbolIndex), q2.exact = true →
      (q2.setCaseSensitive).search indices = q2.search indices) := by
  constructor
  · rw [searchUnbounded_single q syms hn]
    have hacc : q.accepts s = true ↔ ∀ c ∈ q.query, c ∈ s.name := by
      unfold Query.accepts
      rw [hot, hex, hcs]
      simp only [Bool.false_and, Bool.false_eq_true, if_false, eq_self_iff_true, if_true]
      constructor
      · intro h c hc
        by_contra hcon
        have : q.query.any (fun c => !(s.name.contains c)) = true := by
          rw [List.any_eq_true]
          refine ⟨c, hc, ?_⟩
          rw [Bool.not_eq_true']
          cases hmem : s.name.contains c
          · rfl
          · exact absurd (List.elem_iff.mp hmem) hcon
        rw [this] at h
        cases h
      · intro h
        rw [Bool.not_eq_true']
        cases hany : q.query.any (fun c => !(s.name.contains c))
        · rfl
        · rcases List.any_eq_true.mp hany with ⟨c, hc, hnc⟩
          rw [Bool.not_eq_true'] at hnc
          have : s.name.contains c = true := List.elem_iff.mpr (h c hc)
          rw [this] at hnc
          cases hnc
    constructor
    · intro hmem
      rcases List.mem_filter.mp hmem with ⟨h1, h2⟩
      rw [Bool.and_eq_true] at h2
      exact ⟨h1, h2.1, hacc.mp h2.2⟩
    · rintro ⟨h1, h2, h3⟩
      apply List.mem_filter.mpr
      refine ⟨h1, ?_⟩
      rw [Bool.and_eq_true]
      exact ⟨h2, hacc.mpr h3⟩
  · intro q2 indices hex2
    apply search_congr
    · intro s2
      unfold Query.accepts Query.setCaseSensitive
      simp only [hex2, eq_self_iff_true, if_true]
    · rfl
    · rfl

theorem claim_case_sensitive_witness :
    (((Query.new [97, 66]).setCaseSensitive).case_sensitive = true ∧
      ((Query.new [97, 66]).setCaseSensitive).exact = false ∧
      ((Query.new [97, 66]).setCaseSensitive).only_types = false ∧
      [exampleSymbol [66, 97, 114] .Struct].length < 2 ^ 32) ∧
      ((exampleSymbol [66, 97, 114] .Struct ∈
          ((Query.new [97, 66]).setCaseSensitive).searchUnbounded
            [SymbolIndex.new [exampleSymbol [66, 97, 114] .Struct]] ↔
        exampleSymbol [66, 97, 114] .Struct ∈
            (SymbolIndex.new [exampleSymbol [66, 97, 114] .Struct]).symbols ∧
          subsequenceMatch ((Query.new [97, 66]).setCaseSensitive).lowercased
            (lowerName (exampleSymbol [66, 97, 114] .Struct)) = true ∧
          ∀ c ∈ ((Query.new [97, 66]).setCaseSensitive).query,
            c ∈ (exampleSymbol [66, 97, 114] .Struct).name) ∧
        (∀ (q2 : Query) (indices : List SymbolIndex), q2.exact = true →
          (q2.setCaseSensitive).search indices = q2.search indices)) :=
  ⟨⟨rfl, rfl, rfl, by norm_num⟩,
    claim_case_sensitive ((Query.new [97, 66]).setCaseSensitive) rfl rfl rfl
      [exampleSymbol [66, 97, 114] .Struct] (by norm_num)
      (exampleSymbol [66, 97, 114] .Struct)⟩

/-- Over a list of built indexes, the unbounded search returns, as a multiset,
the per-index filters of the tables. -/
theorem searchUnbounded_perm_filters (self : Query) (ls : List (List FileSymbol))
    (hn : ∀ l ∈ ls, l.length < 2 ^ 32) :
    (self.searchUnbounded (ls.map SymbolIndex.new)).Perm
      ((ls.map SymbolIndex.new).flatMap (fun idx =>
        idx.symbols.filter (fun s =>
          subsequenceMatch self.lowercased (lowerName s) && self.accepts s))) := by
  rw [searchUnbounded_canonical]
  refine (flatMap_swap_perm _ _ _).trans (List.Perm.of_eq (flatMap_congr ?_))
  intro idx hidx
  rcases List.mem_map.mp hidx with ⟨l, hl, rfl⟩
  apply flatMap_keyHit_built self l (hn l hl) _ (unionKeys_pairwise _)
  intro k v hkv
  apply mem_unionKeys.mpr
  exact ⟨(SymbolIndex.new l).searchStream self.lowercased,
    List.mem_map_of_mem _ (List.mem_map_of_mem _ hl), v, hkv⟩

/-- C4 counterexample: with `limit = 0` the exact search still returns its
first match, so the cardinality is not `min(matches, limit)`. -/
theorem claim_exact_flag_counterexample :
    ¬ ((((Query.new [98]).setExact).setLimit 0).search
          [SymbolIndex.new [exampleSymbol [98] .Function]]).length =
        min ((SymbolIndex.new [exampleSymbol [98] .Function]).symbols.filter
            (fun s => s.name == [98])).length
          ((((Query.new [98]).setExact).setLimit 0).limit) := by
  decide

/-- C4 (amended to `limit ≥ 1`; a limit of `0` still admits one record): with
the exact flag set over built indexes, every returned record's name equals the
query byte-for-byte, the result cardinality is `min(matches, limit)`, and when
no truncation occurs the result is exactly the multiset of matching records. -/
theorem claim_exact_flag (name0 : List Nat) (l0 : Nat) (hl : 1 ≤ l0)
    (ls : List (List FileSymbol)) (hn : ∀ l ∈ ls, l.length < 2 ^ 32) :
    (∀ s ∈ (((Query.new name0).setExact).setLimit l0).search (ls.map SymbolIndex.new),
      s.name = name0) ∧
    ((((Query.new name0).setExact).setLimit l0).search (ls.map SymbolIndex.new)).length =
      min ((ls.map SymbolIndex.new).flatMap
        (fun i => i.symbols.filter (fun s => s.name == name0))).length l0 ∧
    (((ls.map SymbolIndex.new).flatMap
        (fun i => i.symbols.filter (fun s => s.name == name0))).length ≤ l0 →
      ((((Query.new name0).setExact).setLimit l0).search (ls.map SymbolIndex.new)).Perm
        ((ls.map SymbolIndex.new).flatMap
          (fun i => i.symbols.filter (fun s => s.name == name0)))) := by
  have hpt : ∀ s : FileSymbol,
      (subsequenceMatch ((((Query.new name0).setExact).setLimit l0).lowercased)
        (lowerName s) &&
        (((Query.new name0).setExact).setLimit l0).accepts s) = (s.name == name0) := by
    intro s
    have hacc : (((Query.new name0).setExact).setLimit l0).accepts s =
        (s.name == name0) := rfl
    rw [hacc]
    cases hname : (s.name == name0) with
    | false => rw [Bool.and_false]
    | true =>
      have heq : s.name = name0 := beq_iff_eq.mp hname
      have hlower : lowerName s = (((Query.new name0).setExact).setLimit l0).lowercased := by
        show strToLower s.name = strToLower name0
        rw [heq]
      rw [hlower, subsequenceMatch_refl, Bool.true_and]
  have hperm : ((((Query.new name0).setExact).setLimit l0).searchUnbounded
      (ls.map SymbolIndex.new)).Perm
      ((ls.map SymbolIndex.new).flatMap
        (fun i => i.symbols.filter (fun s => s.name == name0))) := by
    exact (searchUnbounded_perm_filters _ ls hn).trans (List.Perm.of_eq
      (flatMap_congr (fun idx _ => List.filter_congr (fun s _ => hpt s))))
  have hlen := hperm.length_eq
  have hcap : max 1 ((((Query.new name0).setExact).setLimit l0).limit) = l0 := by
    show max 1 l0 = l0
    omega
  refine ⟨?_, ?_, ?_⟩
  · intro s hs
    rw [search_eq_take] at hs
    have hmem := hperm.mem_iff.mp (List.mem_of_mem_take hs)
    rcases List.mem_flatMap.mp hmem with ⟨i, _, hmemi⟩
    exact beq_iff_eq.mp (List.mem_filter.mp hmemi).2
  · rw [search_eq_take, hcap, List.length_take, hlen, Nat.min_comm]
  · intro hle
    rw [search_eq_take, hcap, List.take_of_length_le (by omega)]
    exact hperm

theorem claim_exact_flag_witness :
    (1 ≤ 2 ∧ (∀ l ∈ [[exampleSymbol [70, 111, 111] .Struct,
        exampleSymbol [102, 111, 111] .Function]], l.length < 2 ^ 32)) ∧
      ((∀ s ∈ (((Query.new [70, 111, 111]).setExact).setLimit 2).search
          ([[exampleSymbol [70, 111, 111] .Struct,
            exampleSymbol [102, 111, 111] .Function]].map SymbolIndex.new),
        s.name = [70, 111, 111]) ∧
      ((((Query.new [70, 111, 111]).setExact).setLimit 2).search
          ([[exampleSymbol [70, 111, 111] .Struct,
            exampleSymbol [102, 111, 111] .Function]].map SymbolIndex.new)).length =
        min (([[exampleSymbol [70, 111, 111] .Struct,
            exampleSymbol [102, 111, 111] .Function]].map SymbolIndex.new).flatMap
          (fun i => i.symbols.filter (fun s => s.name == [70, 111, 111]))).length 2 ∧
      ((([[exampleSymbol [70, 111, 111] .Struct,
            exampleSymbol [102, 111, 111] .Function]].map SymbolIndex.new).flatMap
          (fun i => i.symbols.filter (fun s => s.name == [70, 111, 111]))).length ≤ 2 →
        ((((Query.new [70, 111, 111]).setExact).setLimit 2).search
            ([[exampleSymbol [70, 111, 111] .Struct,
              exampleSymbol [102, 111, 111] .Function]].map SymbolIndex.new)).Perm
          (([[exampleSymbol [70, 111, 111] .Struct,
              exampleSymbol [102, 111, 111] .Function]].map SymbolIndex.new).flatMap
            (fun i => i.symbols.filter (fun s => s.name == [70, 111, 111]))))) :=
  ⟨⟨by norm_num, by decide⟩,
    claim_exact_flag [70, 111, 111] 2 (by norm_num)
      [[exampleSymbol [70, 111, 111] .Struct, exampleSymbol [102, 111, 111] .Function]]
      (by decide)⟩

/-! ### The spec-side ordered enumeration (C7) -/

theorem sortedDedup_pairwise (l : List (List Nat)) :
    ((insertionSort lexLe l).dedup).Pairwise (fun x y => lexLt x y = true) := by
  have hsorted := pairwise_insertionSort lexLe lexLe_total
    (fun h1 h2 => lexLe_trans h1 h2) l
  have hle := hsorted.sublist (List.dedup_sublist _)
  have hnd : (insertionSort lexLe l).dedup.Nodup := List.nodup_dedup _
  exact (List.pairwise_and_iff.mpr ⟨hle, hnd⟩).imp
    (fun h => lexLt_of_lexLe_of_ne h.1 h.2)

/-- Modelled from the spec, §4.4's order note: "Order is by `lowercase(name)`
ascending, then by index id, then by position within the batch".  For each
distinct lowercased name in ascending order, for each index in id order, the
records bearing that lowercased name which the automaton reaches and the
filter chain accepts, in table (= batch) order. -/
def specOrderedResults (self : Query) (indices : List SymbolIndex) : List FileSymbol :=
  ((insertionSort lexLe (indices.flatMap (fun idx => idx.symbols.map lowerName))).dedup).flatMap
    (fun k => indices.flatMap (fun idx =>
      if subsequenceMatch self.lowercased k then
        idx.symbols.filter (fun s => lowerName s == k && self.accepts s)
      else []))

theorem nonNull_witness {self : Query} {indices : List SymbolIndex} {k : List Nat}
    (hp : (!((indices.flatMap (fun idx =>
      if subsequenceMatch self.lowercased k then
        idx.symbols.filter (fun s => lowerName s == k && self.accepts s)
      else [])).isEmpty)) = true) :
    subsequenceMatch self.lowercased k = true ∧
      ∃ idx ∈ indices, ∃ x ∈ idx.symbols, lowerName x = k ∧ self.accepts x = true := by
  have hne : (indices.flatMap (fun idx =>
      if subsequenceMatch self.lowercased k then
        idx.symbols.filter (fun s => lowerName s == k && self.accepts s)
      else [])) ≠ [] := by
    intro hcon
    rw [hcon] at hp
    cases hp
  rcases List.exists_mem_of_ne_nil _ hne with ⟨x, hx⟩
  rcases List.mem_flatMap.mp hx with ⟨idx, hidx, hxin⟩
  by_cases hsub : subsequenceMatch self.lowercased k = true
  · rw [if_pos hsub] at hxin
    rcases List.mem_filter.mp hxin with ⟨hxs, hxp⟩
    rw [Bool.and_eq_true, beq_iff_eq] at hxp
    exact ⟨hsub, idx, hidx, x, hxs, hxp.1, hxp.2⟩
  · rw [if_neg hsub] at hxin
    cases hxin

theorem mem_group_lowerName {self : Query} {indices : List SymbolIndex} {k : List Nat}
    {x : FileSymbol}
    (hx : x ∈ indices.flatMap (fun idx =>
      if subsequenceMatch self.lowercased k then
        idx.symbols.filter (fun s => lowerName s == k && self.accepts s)
      else [])) :
    lowerName x = k := by
  rcases List.mem_flatMap.mp hx with ⟨idx, _, hxin⟩
  by_cases hsub : subsequenceMatch self.lowercased k = true
  · rw [if_pos hsub] at hxin
    rcases List.mem_filter.mp hxin with ⟨_, hxp⟩
    rw [Bool.and_eq_true, beq_iff_eq] at hxp
    exact hxp.1
  · rw [if_neg hsub] at hxin
    cases hxin

/-- Every record of a built index contributes its lowercased name as a map
key. -/
theorem lowerName_mem_map_keys {syms : List FileSymbol} (hn : syms.length < 2 ^ 32)
    {x : FileSymbol} (hx : x ∈ (SymbolIndex.new syms).symbols) :
    ∃ v, (lowerName x, v) ∈ (SymbolIndex.new syms).map := by
  have hchain := new_map_chain syms hn
  rcases mem_iff_getD.mp hx with ⟨i, hi, hget⟩
  rcases batchChain_cover hchain i (Nat.zero_le _) hi with ⟨kv, hkv, hb1, hb2⟩
  have hkey := (batchChain_mem_bounds hchain kv hkv).2.2.2 i hb1 hb2
  rw [hget] at hkey
  refine ⟨kv.2, ?_⟩
  rw [hkey]
  exact hkv

/-- Over built indexes the unbounded search is exactly the spec-side ordered
enumeration. -/
theorem searchUnbounded_eq_specOrdered (self : Query) (ls : List (List FileSymbol))
    (hn : ∀ l ∈ ls, l.length < 2 ^ 32) :
    self.searchUnbounded (ls.map SymbolIndex.new) =
      specOrderedResults self (ls.map SymbolIndex.new) := by
  rw [searchUnbounded_canonical]
  unfold specOrderedResults
  have hinner : ∀ k, ∀ _hk : True,
      ((ls.map SymbolIndex.new).flatMap (fun idx => keyHit self idx k)) =
      ((ls.map SymbolIndex.new).flatMap (fun idx =>
        if subsequenceMatch self.lowercased k then
          idx.symbols.filter (fun s => lowerName s == k && self.accepts s)
        else [])) := by
    intro k _
    apply flatMap_congr
    intro idx hidx
    rcases List.mem_map.mp hidx with ⟨l, hl, rfl⟩
    exact keyHit_built self l (hn l hl) k
  rw [flatMap_congr (fun k _ => hinner k trivial)]
  rw [flatMap_filter_nonEmpty (fun k => (ls.map SymbolIndex.new).flatMap (fun idx =>
      if subsequenceMatch self.lowercased k then
        idx.symbols.filter (fun s => lowerName s == k && self.accepts s)
      else []))
    (unionKeys ((ls.map SymbolIndex.new).map (fun i => i.searchStream self.lowercased)))]
  rw [flatMap_filter_nonEmpty (fun k => (ls.map SymbolIndex.new).flatMap (fun idx =>
      if subsequenceMatch self.lowercased k then
        idx.symbols.filter (fun s => lowerName s == k && self.accepts s)
      else []))
    ((insertionSort lexLe ((ls.map SymbolIndex.new).flatMap
      (fun idx => idx.symbols.map lowerName))).dedup)]
  congr 1
  refine strictSorted_eq_of_mem_iff ((unionKeys_pairwise _).filter _)
    ((sortedDedup_pairwise _).filter _) ?_
  intro k
  simp only [List.mem_filter]
  constructor
  · rintro ⟨_, hp⟩
    refine ⟨?_, hp⟩
    rcases nonNull_witness hp with ⟨_, idx, hidx, x, hxs, hxk, _⟩
    rw [List.mem_dedup, (insertionSort_perm _ _).mem_iff, List.mem_flatMap]
    exact ⟨idx, hidx, by rw [← hxk]; exact List.mem_map_of_mem lowerName hxs⟩
  · rintro ⟨_, hp⟩
    refine ⟨?_, hp⟩
    rcases nonNull_witness hp with ⟨hsub, idx, hidx, x, hxs, hxk, _⟩
    rcases List.mem_map.mp hidx with ⟨l, hl, rfl⟩
    rcases lowerName_mem_map_keys (hn l hl) hxs with ⟨v, hv⟩
    rw [hxk] at hv
    apply mem_unionKeys.mpr
    refine ⟨(SymbolIndex.new l).searchStream self.lowercased,
      List.mem_map_of_mem _ hidx, v, ?_⟩
    apply List.mem_filter.mpr
    exact ⟨hv, hsub⟩

/-- Over built indexes the unbounded search is sorted by lowercased name. -/
theorem searchUnbounded_sorted (self : Query) (ls : List (List FileSymbol))
    (hn : ∀ l ∈ ls, l.length < 2 ^ 32) :
    (self.searchUnbounded (ls.map SymbolIndex.new)).Pairwise
      (fun a b => lexLe (lowerName a) (lowerName b) = true) := by
  rw [searchUnbounded_eq_specOrdered self ls hn]
  unfold specOrderedResults
  rw [List.flatMap]
  apply List.pairwise_flatten.mpr
  constructor
  · intro grp hgrp
    rcases List.mem_map.mp hgrp with ⟨k, _, rfl⟩
    apply List.pairwise_of_forall_mem_list
    intro a ha b hb
    rw [mem_group_lowerName ha, mem_group_lowerName hb]
    exact lexLe_refl k
  · apply List.pairwise_map.mpr
    apply (sortedDedup_pairwise _).imp
    intro k1 k2 hk12 a ha b hb
    rw [mem_group_lowerName ha, mem_group_lowerName hb]
    exact lexLe_of_lexLt hk12

/-- C7: over built indexes, the vector returned by `search` is the (limit-long
prefix of the) spec-ordered enumeration — lowercased name ascending, then
index id, then position within the batch — and in particular is sorted by
lowercased name; the model is pure, so the same query over the same indexes
always yields this same vector. -/
theorem claim_result_order (q : Query) (ls : List (List FileSymbol))
    (hn : ∀ l ∈ ls, l.length < 2 ^ 32) :
    q.search (ls.map SymbolIndex.new) =
      (specOrderedResults q (ls.map SymbolIndex.new)).take (max 1 q.limit) ∧
    (q.search (ls.map SymbolIndex.new)).Pairwise
      (fun a b => lexLe (lowerName a) (lowerName b) = true) := by
  constructor
  · rw [search_eq_take, searchUnbounded_eq_specOrdered q ls hn]
  · rw [search_eq_take]
    exact (searchUnbounded_sorted q ls hn).sublist (List.take_sublist _ _)

theorem claim_result_order_witness :
    (∀ l ∈ [[exampleSymbol [66] .Struct, exampleSymbol [98, 97] .Function],
        [exampleSymbol [98] .Const]], l.length < 2 ^ 32) ∧
      ((Query.new [98]).search
          ([[exampleSymbol [66] .Struct, exampleSymbol [98, 97] .Function],
            [exampleSymbol [98] .Const]].map SymbolIndex.new) =
        (specOrderedResults (Query.new [98])
          ([[exampleSymbol [66] .Struct, exampleSymbol [98, 97] .Function],
            [exampleSymbol [98] .Const]].map SymbolIndex.new)).take
          (max 1 (Query.new [98]).limit) ∧
      ((Query.new [98]).search
          ([[exampleSymbol [66] .Struct, exampleSymbol [98, 97] .Function],
            [exampleSymbol [98] .Const]].map SymbolIndex.new)).Pairwise
        (fun a b => lexLe (lowerName a) (lowerName b) = true)) :=
  ⟨by decide,
    claim_result_order (Query.new [98])
      [[exampleSymbol [66] .Struct, exampleSymbol [98, 97] .Function],
        [exampleSymbol [98] .Const]] (by decide)⟩

/-- C9: for all naturals `s`, `e` with `s < 2^32`, `e < 2^32` and `s ≤ e`,
`map_value_to_range (range_to_map_value s e) = (s, e)`. -/
theorem claim_range_round_trip (s e : Nat) (hs : s < 2 ^ 32) (he : e < 2 ^ 32)
    (_hse : s ≤ e) :
    SymbolIndex.map_value_to_range (SymbolIndex.range_to_map_value s e) = (s, e) :=
  map_value_to_range_round_trip hs he

theorem claim_range_round_trip_witness :
    (3 : Nat) < 2 ^ 32 ∧ (7 : Nat) < 2 ^ 32 ∧ (3 : Nat) ≤ 7 ∧
      SymbolIndex.map_value_to_range (SymbolIndex.range_to_map_value 3 7) = (3, 7) :=
  ⟨by norm_num, by norm_num, by norm_num,
    claim_range_round_trip 3 7 (by norm_num) (by norm_num) (by norm_num)⟩

/-- C3 counterexample: with `limit = 0` and one matching record, `search`
returns one record, so `result.len() <= query.limit` fails (the push happens
before the length check). -/
theorem claim_limit_counterexample :
    ¬ ((((Query.new [97]).setLimit 0).search
          [SymbolIndex.new [exampleSymbol [97] .Function]]).length ≤
        ((Query.new [97]).setLimit 0).limit) := by
  decide

/-- C3 (amended to `limit ≥ 1`; a limit of `0` admits one record because the
length check runs after the push): the result length is at most `limit`, and
equals `limit` whenever the unbounded search yields at least `limit`
records. -/
theorem claim_limit (q : Query) (indices : List SymbolIndex) (h : 1 ≤ q.limit) :
    (q.search indices).length ≤ q.limit ∧
      (q.limit ≤ (q.searchUnbounded indices).length →
        (q.search indices).length = q.limit) := by
  rw [search_eq_take]
  have hcap : max 1 q.limit = q.limit := by omega
  rw [hcap, List.length_take]
  exact ⟨Nat.min_le_left _ _, fun hle => by omega⟩

theorem claim_limit_witness :
    1 ≤ ((Query.new [97]).setLimit 2).limit ∧
      ((((Query.new [97]).setLimit 2).search
            [SymbolIndex.new [exampleSymbol [97] .Function]]).length ≤
          ((Query.new [97]).setLimit 2).limit ∧
        (((Query.new [97]).setLimit 2).limit ≤
            (((Query.new [97]).setLimit 2).searchUnbounded
              [SymbolIndex.new [exampleSymbol [97] .Function]]).length →
          (((Query.new [97]).setLimit 2).search
              [SymbolIndex.new [exampleSymbol [97] .Function]]).length =
            ((Query.new [97]).setLimit 2).limit)) :=
  ⟨by decide, claim_limit _ _ (by decide)⟩

end SymbolIndexModel
